import Mathlib

/-!
Verification development for the `privet` locale-phrase store (Go).

The Go code is embedded shallowly:
 - Go `map[string]T` values are association lists `List (String × T)` with
   unique keys; insertion (`ainsert`) replaces an existing binding in place.
   Map iteration is modelled as iteration in list order (the properties
   proved below do not depend on Go's randomized map order).
 - Go strings are Lean `String`s; the byte-level accesses of
   `isValidLocaleName` coincide with character-level accesses on every
   string that can pass (or fail) its ASCII checks.
 - `*ekaerr.Error` results become `Except`/`Option` values whose error
   constructors are named after the distinct error-construction sites of
   the source; panics are modelled by dedicated constructors.
 - Decoded YAML/TOML documents (produced by external decoder libraries)
   are values of the `Value` tree type; the decoders themselves are a
   parameter (`Decoders`) of the load pipeline.
 - The MD5 content digest is modelled as the content itself (an injective
   digest); the code only ever compares digests for equality.
-/

namespace Privet

/-- Go bytes (`[]byte`) as a list of byte values. -/
abbrev Bytes : Type := List Nat

/-- The payload of a non-error `Except` result (for stating decidable
facts about results whose error type carries no `DecidableEq`). -/
def exOk {ε α : Type} : Except ε α → Option α
  | .ok a => some a
  | .error _ => none

/-- The payload of an error `Except` result. -/
def exErr {ε α : Type} : Except ε α → Option ε
  | .ok _ => none
  | .error e => some e

/-- Lookup in an association list: Go `m[k]` (comma-ok form). -/
def alookup {α : Type} : List (String × α) → String → Option α
  | [], _ => none
  | (k2, v) :: rest, k => if k2 = k then some v else alookup rest k

/-- Insertion into an association list: Go `m[k] = v`.
Replaces the existing binding in place, else appends. -/
def ainsert {α : Type} : List (String × α) → String → α → List (String × α)
  | [], k, v => [(k, v)]
  | (k2, w) :: rest, k, v =>
    if k2 = k then (k2, v) :: rest else (k2, w) :: ainsert rest k v

/-- Executable key-uniqueness for association lists. -/
def keysNodupB {α : Type} : List (String × α) → Bool
  | [] => true
  | (k, _) :: rest => (alookup rest k).isNone && keysNodupB rest

/-- The decoded-document value tree, as produced by the external YAML/TOML
decoders into Go's `map[string]interface{}`.  Mirrors the runtime types the
source dispatches on: strings, bools, any int (read as `int64`), any uint
(read as `uint64`), any float (read as `float64`; `vFloat m e` denotes the
exact binary value `m / 2^e` of that float), untyped nil, nested
`map[string]interface{}`, `[]interface{}` and `[]map[string]interface{}`. -/
inductive Value where
  | vStr (s : String)
  | vBool (b : Bool)
  | vInt (i : Int)
  | vUInt (u : Nat)
  | vFloat (m : Int) (e : Nat)
  | vNull
  | vMap (m : List (String × Value))
  | vArr (l : List Value)
  | vMapArr (l : List (List (String × Value)))

/-- A decoded document root (`map[string]interface{}`). -/
abbrev Doc : Type := List (String × Value)

/-- Whether a value takes one of the scalar branches of `localeNode.scan`. -/
def isScalarValue : Value → Bool
  | .vStr _ | .vBool _ | .vInt _ | .vUInt _ | .vFloat _ _ | .vNull => true
  | .vMap _ | .vArr _ | .vMapArr _ => false

/-- `SourceItemType` constants (`uint8`).  Note the source assigns the same
value 151 to both `SOURCE_ITEM_TYPE_CONTENT_YAML` and
`SOURCE_ITEM_TYPE_CONTENT_TOML`. -/
def SOURCE_ITEM_TYPE_FILE_YAML : Nat := 100

def SOURCE_ITEM_TYPE_FILE_TOML : Nat := 101

def SOURCE_ITEM_TYPE_CONTENT_UNKNOWN : Nat := 150

def SOURCE_ITEM_TYPE_CONTENT_YAML : Nat := 151

def SOURCE_ITEM_TYPE_CONTENT_TOML : Nat := 151

/-- `SourceItem`: one registered source.  `md5` is the content digest,
modelled as the content itself. -/
structure SourceItem where
  itemType : Nat
  path : String
  localeName : String
  content : Bytes
  md5 : Bytes
deriving DecidableEq

/-- `localeNode`: one segment of a locale's key namespace.
`content` holds committed phrases, `contentTmp` the staging phrases of the
document currently being merged, `usedSourcesIdx` the indexes of sources
that contributed to exactly this node.  The Go back-pointer
`parent *Locale` is represented by passing the owning client's `sourcesTmp`
explicitly to the operations that read it. -/
structure LocaleNode where
  subNodes : List (String × LocaleNode)
  content : List (String × String)
  contentTmp : List (String × String)
  usedSourcesIdx : List Nat

/-- `Locale.makeSubNode`: a fresh, empty node. -/
def emptyLocaleNode : LocaleNode := ⟨[], [], [], []⟩

/-- `Locale`: one language's root node plus identity.  `ownerNil` models a
nil `owner *Client` back-pointer and `root` a possibly-nil root node (both
can only be degenerate on manually constructed values). -/
structure Locale where
  ownerNil : Bool
  root : Option LocaleNode
  name : String
  phrasesCount : Nat

/-- `Client.makeLocale`: Locale constructor. -/
def makeLocale (name : String) : Locale :=
  { ownerNil := false, root := some emptyLocaleNode, name := name, phrasesCount := 0 }

/-- `Locale.isValid` on a possibly-nil receiver:
`l != nil && l.owner != nil && l.root != nil`. -/
def localeIsValid : Option Locale → Bool
  | none => false
  | some l => !l.ownerNil && l.root.isSome

/-- The distinct error-construction sites of `localeNode.scan` / `store`.
`alreadyExist` carries the previously contributing origins, the key, the
new value and the old value, exactly the fields the source attaches. -/
inductive ScanErr where
  | emptyKey
  | unexpectedType
  | alreadyExist (origins : List String) (key newValue oldValue : String)
deriving DecidableEq

/-- The origin paths of the sources that contributed to a node:
`c.sourcesTmp[usedSourceIdx].Path` for each recorded index. -/
def originPaths (sources : List SourceItem) (idxs : List Nat) : List String :=
  idxs.map (fun i => match sources.get? i with | some s => s.path | none => "")

/-- `localeNode.store`: saves `key ↦ value` into `contentTmp` unless the key
already exists in the committed `content` map and overwriting is
prohibited, in which case it fails with the AlreadyExist error. -/
def nodeStore (sources : List SourceItem) (n : LocaleNode) (key value : String)
    (overwrite : Bool) : Except ScanErr LocaleNode :=
  match alookup n.content key with
  | some oldValue =>
    if overwrite then
      .ok { n with contentTmp := ainsert n.contentTmp key value }
    else
      .error (.alreadyExist (originPaths sources n.usedSourcesIdx) key value oldValue)
  | none => .ok { n with contentTmp := ainsert n.contentTmp key value }

/-- Round `num / den` (with `den > 0`) to the nearest integer, ties to the
even integer: the rounding `strconv.FormatFloat` applies to the exact
binary value. -/
def roundHalfToEven (num den : Nat) : Nat :=
  let q := num / den
  let r := num % den
  if 2 * r < den then q
  else if den < 2 * r then q + 1
  else if q % 2 = 0 then q else q + 1

/-- `strconv.FormatFloat(f, 'f', 2, bitSize)` on the exact binary value
`m / 2^e` of the float: fixed-point with exactly two fractional digits.
(The `bitSize` argument of the source only selects which binary value the
stored `float64` denotes; here the value is given exactly.) -/
def formatFloatFixed2 (m : Int) (e : Nat) : String :=
  let scaled := roundHalfToEven (100 * m.natAbs) (2 ^ e)
  let ip := scaled / 100
  let fp := scaled % 100
  (if m < 0 then "-" else "") ++ toString ip ++ "."
    ++ (if fp < 10 then "0" else "") ++ toString fp

/-- The canonical string form of a scalar value, matching the conversions
of the scalar branches of `localeNode.scan` (booleans as "true"/"false",
`strconv.FormatInt`/`FormatUint` base 10, floats via fixed 2-digit
formatting, untyped nil as "<undefined>").  Non-scalars are never stored;
they map to "" here. -/
def canonicalScalarString : Value → String
  | .vStr s => s
  | .vBool b => if b then "true" else "false"
  | .vInt i => toString i
  | .vUInt u => toString u
  | .vFloat m e => formatFloatFixed2 m e
  | .vNull => "<undefined>"
  | .vMap _ | .vArr _ | .vMapArr _ => ""

/-- End of `localeNode.scan`: record `sourceItemIdx` in `usedSourcesIdx`
if it is not present yet. -/
def markUsed (idx : Nat) (n : LocaleNode) : LocaleNode :=
  if idx ∈ n.usedSourcesIdx then n
  else { n with usedSourcesIdx := n.usedSourcesIdx ++ [idx] }

mutual
/-- The loop of `localeNode.scan` over the entries of a decoded map:
empty keys fail, then the value is dispatched by `scanValue` and the
remaining entries are processed on the updated node. -/
def scanEntries (sources : List SourceItem) (idx : Nat) (overwrite : Bool) :
    LocaleNode → List (String × Value) → Except ScanErr LocaleNode
  | n, [] => .ok n
  | n, (key, v) :: rest =>
    if key = "" then .error .emptyKey
    else
      match scanValue sources idx overwrite n key v with
      | .error e => .error e
      | .ok n2 => scanEntries sources idx overwrite n2 rest

/-- The value dispatch of `localeNode.scan`: scalars are stored via
`nodeStore` in their canonical string form, a nested map recurses into the
(lazily created) sub-node — the recursive method call ending by recording
the source index on that sub-node — and any other runtime type is the
unexpected-type failure. -/
def scanValue (sources : List SourceItem) (idx : Nat) (overwrite : Bool)
    (n : LocaleNode) (key : String) : Value → Except ScanErr LocaleNode
  | .vNull => nodeStore sources n key "<undefined>" overwrite
  | .vStr s => nodeStore sources n key s overwrite
  | .vBool b => nodeStore sources n key (if b then "true" else "false") overwrite
  | .vInt i => nodeStore sources n key (toString i) overwrite
  | .vUInt u => nodeStore sources n key (toString u) overwrite
  | .vFloat m e => nodeStore sources n key (formatFloatFixed2 m e) overwrite
  | .vMap mm =>
    match scanEntries sources idx overwrite
        (match alookup n.subNodes key with
          | some s => s
          | none => emptyLocaleNode) mm with
    | .error e => .error e
    | .ok sub2 => .ok { n with subNodes := ainsert n.subNodes key (markUsed idx sub2) }
  | .vArr _ => .error .unexpectedType
  | .vMapArr _ => .error .unexpectedType
end

/-- `localeNode.scan`: process all entries, then record the source index on
this node.  (Each recursive call on a sub-node in `scanEntries` likewise
ends by marking that sub-node, mirroring the recursive method call.) -/
def nodeScan (sources : List SourceItem) (idx : Nat) (overwrite : Bool)
    (n : LocaleNode) (entries : List (String × Value)) : Except ScanErr LocaleNode :=
  match scanEntries sources idx overwrite n entries with
  | .error e => .error e
  | .ok n2 => .ok (markUsed idx n2)

mutual
/-- The promotion pass of `Client.scan` (via `applyRecursively`): move all
staging entries of every node into the committed map, counting one per
moved entry, then clear staging. -/
def promoteNode : LocaleNode → LocaleNode × Nat
  | ⟨subs, content, tmp, used⟩ =>
    let p := promoteSubs subs
    (⟨p.1, tmp.foldl (fun c q => ainsert c q.1 q.2) content, [], used⟩,
      tmp.length + p.2)

def promoteSubs : List (String × LocaleNode) → List (String × LocaleNode) × Nat
  | [] => ([], 0)
  | (k, c) :: rest =>
    let pc := promoteNode c
    let pr := promoteSubs rest
    ((k, pc.1) :: pr.1, pc.2 + pr.2)
end

mutual
/-- Total committed leaf phrases across a whole subtree. -/
def committedCount : LocaleNode → Nat
  | ⟨subs, content, _, _⟩ => content.length + committedCountSubs subs

def committedCountSubs : List (String × LocaleNode) → Nat
  | [] => 0
  | (_, c) :: rest => committedCount c + committedCountSubs rest
end

mutual
/-- The final pass of `Client.load` on success: `node.contentTmp = nil` on
every node of every locale. -/
def clearTmpNode : LocaleNode → LocaleNode
  | ⟨subs, content, _, used⟩ => ⟨clearTmpSubs subs, content, [], used⟩

def clearTmpSubs : List (String × LocaleNode) → List (String × LocaleNode)
  | [] => []
  | (k, c) :: rest => (k, clearTmpNode c) :: clearTmpSubs rest
end

mutual
/-- Key-uniqueness of every map in a subtree (Go maps cannot hold
duplicate keys; the association-list embedding tracks it explicitly). -/
def nodeWF : LocaleNode → Bool
  | ⟨subs, content, tmp, _⟩ =>
    keysNodupB content && keysNodupB tmp && keysNodupB subs && nodeWFSubs subs

def nodeWFSubs : List (String × LocaleNode) → Bool
  | [] => true
  | (_, c) :: rest => nodeWF c && nodeWFSubs rest
end

mutual
/-- Every staging key of every node is absent from that node's committed
map (holds during a no-overwrite merge). -/
def nodeFresh : LocaleNode → Bool
  | ⟨subs, content, tmp, _⟩ =>
    tmp.all (fun p => (alookup content p.1).isNone) && nodeFreshSubs subs

def nodeFreshSubs : List (String × LocaleNode) → Bool
  | [] => true
  | (_, c) :: rest => nodeFresh c && nodeFreshSubs rest
end

mutual
/-- Every staging map in a subtree is empty (holds between documents). -/
def nodeTmpEmpty : LocaleNode → Bool
  | ⟨subs, _, tmp, _⟩ => tmp.isEmpty && nodeTmpEmptySubs subs

def nodeTmpEmptySubs : List (String × LocaleNode) → Bool
  | [] => true
  | (_, c) :: rest => nodeTmpEmpty c && nodeTmpEmptySubs rest
end

/-- `ekastr.CharIsLowerCaseLetter`: an ASCII lowercase letter byte. -/
def charIsLowerCaseLetter (c : Char) : Bool :=
  decide (97 ≤ c.toNat ∧ c.toNat ≤ 122)

/-- `ekastr.CharIsUpperCaseLetter`: an ASCII uppercase letter byte. -/
def charIsUpperCaseLetter (c : Char) : Bool :=
  decide (65 ≤ c.toNat ∧ c.toNat ≤ 90)

/-- `isValidLocaleName`: length 5, bytes 0 and 1 lowercase letters, bytes 3
and 4 uppercase letters, byte 2 an underscore — in the source's check
order.  (Byte accesses coincide with character accesses on every string
these ASCII checks can accept.) -/
def isValidLocaleName (s : String) : Bool :=
  let cs := s.toList
  decide (cs.length = 5) &&
  charIsLowerCaseLetter (cs.getD 0 ' ') &&
  charIsLowerCaseLetter (cs.getD 1 ' ') &&
  charIsUpperCaseLetter (cs.getD 3 ' ') &&
  charIsUpperCaseLetter (cs.getD 4 ' ') &&
  decide (cs.getD 2 ' ' = '_')

/-- `__SPTR_PREFIX`. -/
def sptrPrefixStr : String := "i18nErr: "

/-- `__SPTR_SUFFIX`. -/
def sptrSuffixStr : String := ". Key: "

/-- `_SPTR_LOCALE_IS_NIL`. -/
def sptrLocaleIsNil : String := sptrPrefixStr ++ "LocaleIsNil" ++ sptrSuffixStr

/-- `_SPTR_TRANSLATION_KEY_IS_EMPTY`. -/
def sptrTranslationKeyIsEmpty : String :=
  sptrPrefixStr ++ "TranslationKeyIsEmpty" ++ sptrSuffixStr

/-- `_SPTR_TRANSLATION_KEY_IS_INCORRECT`. -/
def sptrTranslationKeyIsIncorrect : String :=
  sptrPrefixStr ++ "TranslationKeyIsIncorrect" ++ sptrSuffixStr

/-- `_SPTR_TRANSLATION_NOT_FOUND`. -/
def sptrTranslationNotFound : String :=
  sptrPrefixStr ++ "TranslationNotFound" ++ sptrSuffixStr

/-- `sptr`: special-string generator, `string(class) + originalKey`. -/
def sptr (cls : String) (originalKey : String) : String := cls ++ originalKey

/-- Interpolation arguments.  Go's `Args` is `map[string]interface{}` and a
found argument is substituted by its textual representation
(`ekastr.ToString`); the embedding carries that textual form directly. -/
abbrev Args : Type := List (String × String)

/-- The character `{` (written via its code to keep it out of literals). -/
def lbrace : Char := Char.ofNat 123

/-- The character `}`. -/
def rbrace : Char := Char.ofNat 125

/-- Modelled from the spec: the `format` interpolation helper of the
`privet` package is absent from the provided sources (only its caller
`Locale.Tr` and the legacy twin `i18n.format` appear).  Spec §4.5: scan
the phrase for verbs of the exact form `(double left brace)name(double
right brace)`; a verb whose name is present in the argument mapping is
replaced by that argument's text, a verb with an absent name is left
unchanged byte-for-byte, and a verb with no closing marker is preserved as
literal trailing text.  `none`/`some acc` is the scanner state: outside a
verb / inside a verb with the name characters read so far (reversed). -/
def fmtChars (args : Args) : Option (List Char) → List Char → List Char
  | none, [] => []
  | none, [c] => [c]
  | none, c :: c2 :: rest =>
    if c = lbrace ∧ c2 = lbrace then fmtChars args (some []) rest
    else c :: fmtChars args none (c2 :: rest)
  | some acc, [] => lbrace :: lbrace :: acc.reverse
  | some acc, [c] => lbrace :: lbrace :: acc.reverse ++ [c]
  | some acc, c :: c2 :: rest =>
    if c = rbrace ∧ c2 = rbrace then
      match alookup args (String.mk acc.reverse) with
      | some v => v.toList ++ fmtChars args none rest
      | none =>
        lbrace :: lbrace :: acc.reverse ++ rbrace :: rbrace :: fmtChars args none rest
    else fmtChars args (some (c :: acc)) (c2 :: rest)

/-- Modelled from the spec (see `fmtChars`): `format(phrase, args)`. -/
def format (phrase : String) (args : Args) : String :=
  String.mk (fmtChars args none phrase.toList)

/-- `DEFAULT_DELIMITER`. -/
def slashChar : Char := '/'

/-- Split a character list into `/`-separated segments (the successive
`strings.IndexByte(key, DEFAULT_DELIMITER)` splits of `Locale.Tr`,
materialized). -/
def splitSegs : List Char → List (List Char)
  | [] => [[]]
  | c :: rest =>
    match splitSegs rest with
    | [] => [[c]]
    | s :: ss => if c = slashChar then [] :: s :: ss else (c :: s) :: ss

/-- The descent loop of `Locale.Tr` over the key's `/`-segments: a split
with an empty half is an incorrect key; an intermediate segment descends
into the sub-node (missing sub-node: not found); the final segment is
looked up in the committed map and interpolated on hit. -/
def trWalk (args : Args) (originalKey : String) :
    LocaleNode → List (List Char) → String
  | _, [] => sptr sptrTranslationNotFound originalKey
  | n, [seg] =>
    match alookup n.content (String.mk seg) with
    | some phrase => format phrase args
    | none => sptr sptrTranslationNotFound originalKey
  | n, seg :: seg2 :: segs =>
    if seg2 :: segs = [[]] ∨ seg = [] then
      sptr sptrTranslationKeyIsIncorrect originalKey
    else
      match alookup n.subNodes (String.mk seg) with
      | some sub => trWalk args originalKey sub (seg2 :: segs)
      | none => sptr sptrTranslationNotFound originalKey

/-- `Locale.Tr`: nil-safe translation.  Invalid receiver and empty key
return their sentinel strings; otherwise the root node is walked.  (A nil
root never enters the walk loop, yielding the not-found sentinel.) -/
def localeTr (l : Option Locale) (key : String) (args : Args) : String :=
  if localeIsValid l = false then sptr sptrLocaleIsNil key
  else if key = "" then sptr sptrTranslationKeyIsEmpty key
  else
    match l with
    | some loc =>
      match loc.root with
      | some root => trWalk args key root (splitSegs key.toList)
      | none => sptr sptrTranslationNotFound key
    | none => sptr sptrLocaleIsNil key

/-- `Locale.Name`: nil-safe name accessor. -/
def localeName (l : Option Locale) : String :=
  if localeIsValid l = false then "" else (match l with | some loc => loc.name | none => "")

/-- `strings.ToLower` (the keys compared in this code are ASCII). -/
def toLowerStr (s : String) : String := String.mk (s.toList.map Char.toLower)

/-- The distinct error-construction sites of `SourceItem.loadMetaData` and
`SourceItem.findLocaleInFilepath`.  All are built on `ekaerr.IllegalFormat`
in the source; the constructors whose source message says "ambiguous" are
`ambiguousSections`, `ambiguousObjects`, `ambiguousLocaleName` and
`pathAmbiguous`.  `pathPanic` models the `tmp[i][0]` index-out-of-range
panic of `findLocaleInFilepath` on an empty token. -/
inductive MetaErr where
  | ambiguousSections (key1 key2 : String)
  | notFoundTag
  | ambiguousObjects
  | incorrectType
  | noFields
  | ambiguousLocaleName
  | localeNameIncorrectType
  | localeNameEmpty
  | localeNameBadFormat
  | pathPanic
  | pathAmbiguous
deriving DecidableEq

/-- Which metadata failures the spec's taxonomy calls AmbiguousMetadata:
exactly the sites whose source message contains "ambiguous". -/
def MetaErr.isAmbiguous : MetaErr → Bool
  | .ambiguousSections _ _ | .ambiguousObjects | .ambiguousLocaleName
  | .pathAmbiguous => true
  | _ => false

/-- The first loop of `loadMetaData`: scan top-level keys case-insensitively
for `__metadata__`; the first match is removed from the tree and kept, a
second match is the two-or-more-sections failure. -/
def extractMetaLoop (found : Option (String × Value)) (kept : Doc) :
    Doc → Except MetaErr (Option (String × Value) × Doc)
  | [] => .ok (found, kept)
  | (k, v) :: rest =>
    if toLowerStr k = "__metadata__" then
      match found with
      | none => extractMetaLoop (some (k, v)) kept rest
      | some (k1, _) => .error (.ambiguousSections k1 k)
    else extractMetaLoop found (kept ++ [(k, v)]) rest

/-- The locale-name aliases recognized inside the metadata block. -/
def localeAliases : List String := ["locale_name", "localename", "locale", "name"]

/-- The locale-name extraction loop of `loadMetaData`: an alias key with a
string value fills the (empty) locale name, a second one is the ambiguity
failure, a non-string value is the incorrect-type failure. -/
def scanMetaFields (currentName : String) :
    List (String × Value) → Except MetaErr String
  | [] => .ok currentName
  | (k, v) :: rest =>
    if localeAliases.contains (toLowerStr k) then
      match v with
      | .vStr s =>
        if currentName = "" then scanMetaFields s rest
        else .error .ambiguousLocaleName
      | _ => .error .localeNameIncorrectType
    else scanMetaFields currentName rest

/-- The tail of `loadMetaData` once the metadata map is in hand: the
no-fields check, the locale-name extraction and the final validation. -/
def loadMetaDataFields (si : SourceItem) (root2 : Doc)
    (metaMap : List (String × Value)) : Except MetaErr (SourceItem × Doc) :=
  if si.localeName = "" ∧ metaMap.isEmpty then .error .noFields
  else
    match scanMetaFields si.localeName metaMap with
    | .error e => .error e
    | .ok nm =>
      if nm = "" then .error .localeNameEmpty
      else if isValidLocaleName nm = false then .error .localeNameBadFormat
      else .ok ({ si with localeName := nm }, root2)

/-- `SourceItem.loadMetaData`: find the metadata section (removing it from
the tree), require it when no locale name is known yet, check its shape
(object, or single-element array of objects), then extract and validate
the locale name.  Returns the updated item and the tree without the
metadata key. -/
def loadMetaData (si : SourceItem) (root : Doc) :
    Except MetaErr (SourceItem × Doc) :=
  match extractMetaLoop none [] root with
  | .error e => .error e
  | .ok (none, root2) =>
    if si.localeName = "" then .error .notFoundTag else .ok (si, root2)
  | .ok (some (_, metaVal), root2) =>
    match metaVal with
    | .vMap metaMap => loadMetaDataFields si root2 metaMap
    | .vMapArr arr =>
      match arr with
      | [m] => loadMetaDataFields si root2 m
      | _ => .error .ambiguousObjects
    | _ => .error .incorrectType

/-- The separator set of `findLocaleInFilepath` (`"_-. "`). -/
def isSepChar (c : Char) : Bool := c = '_' || c = '-' || c = '.' || c = ' '

/-- The inner splitting loop of `findLocaleInFilepath`: split one path
segment on the separator set, retaining each separator as its own
single-character token (empty text tokens appear between adjacent
separators and at the edges, exactly as in the source). -/
def tokenize : List Char → List String
  | [] => [""]
  | c :: rest =>
    if isSepChar c then "" :: String.mk [c] :: tokenize rest
    else
      match tokenize rest with
      | [] => [String.mk [c]]
      | t :: ts => String.mk (c :: t.toList) :: ts

/-- The analysis loop of `findLocaleInFilepath` over the token sequence:
a window of three tokens of total length 5 forming a valid locale name is
kept (skipping the window); a 5-length window that is not a valid name
drops its first token entirely (the source's else-if chain appends
nothing); otherwise tokens longer than one character or non-separator
characters are kept, single separators are dropped, and an empty token
makes the source panic on `tmp[i][0]`. -/
def analyseElseStep (t1 : String) (tailRes : Except MetaErr (List String)) :
    Except MetaErr (List String) :=
  if 1 < t1.length then tailRes.map (fun l => t1 :: l)
  else
    match t1.toList with
    | [] => .error .pathPanic
    | c :: _ =>
      if isSepChar c then tailRes else tailRes.map (fun l => t1 :: l)

/-- See `analyseElseStep` for the treatment of a single non-window token. -/
def analyseTokens : List String → Except MetaErr (List String)
  | [] => .ok []
  | t1 :: t2 :: t3 :: rest2 =>
    if t1.length + t2.length + t3.length = 5 then
      if isValidLocaleName (t1 ++ t2 ++ t3) then
        (analyseTokens rest2).map (fun l => (t1 ++ t2 ++ t3) :: l)
      else analyseTokens (t2 :: t3 :: rest2)
    else analyseElseStep t1 (analyseTokens (t2 :: t3 :: rest2))
  | t1 :: rest => analyseElseStep t1 (analyseTokens rest)

/-- Tokenize and analyse every `/`-separated, non-empty path segment,
concatenating the candidate tokens. -/
def collectPathParts : List (List Char) → Except MetaErr (List String)
  | [] => .ok []
  | seg :: rest =>
    match analyseTokens (tokenize seg) with
    | .error e => .error e
    | .ok ps =>
      match collectPathParts rest with
      | .error e => .error e
      | .ok qs => .ok (ps ++ qs)

/-- The final loop of `findLocaleInFilepath`: among the candidate tokens,
the unique valid locale name (if any) is recorded; a second one is the
ambiguity failure. -/
def scanPathParts (si : SourceItem) : List String → Except MetaErr SourceItem
  | [] => .ok si
  | p :: rest =>
    if isValidLocaleName p then
      if si.localeName = "" then scanPathParts { si with localeName := p } rest
      else .error .pathAmbiguous
    else scanPathParts si rest

/-- `SourceItem.findLocaleInFilepath`: look for a locale name embedded in
the origin path (never invoked by the load pipeline of this version). -/
def findLocaleInFilepath (si : SourceItem) : Except MetaErr SourceItem :=
  let segs := (splitSegs si.path.toList).filter (fun s => s ≠ [])
  match collectPathParts segs with
  | .error e => .error e
  | .ok parts => scanPathParts si parts

/-- `_LLS_STANDBY`. -/
def LLS_STANDBY : Nat := 0

/-- `_LLS_SOURCE_PENDING`. -/
def LLS_SOURCE_PENDING : Nat := 1

/-- `_LLS_LOAD_PENDING`. -/
def LLS_LOAD_PENDING : Nat := 2

/-- `_LLS_READY`. -/
def LLS_READY : Nat := 10

/-- The three boolean configuration switches (C-like `uint32` flags in the
source, read atomically). -/
structure ClientConfig where
  overwriteExistingKey : Bool
  lcEmptyLocaleNameAsNil : Bool
  lcNotFoundLocaleAsNil : Bool
deriving DecidableEq

/-- `Client`: state flag, configuration, atomically published default
locale and locale registry, provisional registry, committed and pending
source descriptors, and the bookkeeping totals.  (The scratch `bytes.Buffer`
is an I/O detail and is not represented.) -/
structure Client where
  state : Nat
  config : ClientConfig
  defaultLocale : Option Locale
  storage : Option (List (String × Locale))
  storageTmp : Option (List (String × Locale))
  sources : List SourceItem
  sourcesTmp : List SourceItem
  phrasesTotal : Nat
  localesTotal : Nat

/-- The zero value of `Client` (`defaultClient`, or `var c Client`). -/
def zeroClient : Client :=
  ⟨LLS_STANDBY, ⟨false, false, false⟩, none, none, none, [], [], 0, 0⟩

/-- `Client.getDefaultLocale`: nil unless the state is Ready. -/
def getDefaultLocale (c : Client) : Option Locale :=
  if c.state ≠ LLS_READY then none else c.defaultLocale

/-- `Client.getLocale`: nil unless the state is Ready; a nil registry map
yields nil lookups. -/
def getLocale (c : Client) (name : String) : Option Locale :=
  if c.state ≠ LLS_READY then none
  else
    match c.storage with
    | some st => alookup st name
    | none => none

/-- `Client.LC`: empty names and missing locales fall back to the default
locale unless the corresponding configuration switch disables it. -/
def clientLC (c : Client) (name : String) : Option Locale :=
  if name = "" then
    if c.config.lcEmptyLocaleNameAsNil then none else getDefaultLocale c
  else
    match getLocale c name with
    | some loc => some loc
    | none =>
      if c.config.lcNotFoundLocaleAsNil then none else getDefaultLocale c

/-- `Client.Tr` = `c.LC(localeName).Tr(key, args)`. -/
def clientTr (c : Client) (lcName key : String) (args : Args) : String :=
  localeTr (clientLC c lcName) key args

/-- `Locale.MarkAsDefault`: a no-op on an invalid receiver, otherwise
stores the locale into its owner's default-locale pointer. -/
def markAsDefault (owner : Client) (l : Option Locale) : Client :=
  if localeIsValid l then { owner with defaultLocale := l } else owner

/-- The distinct failure outcomes of `Client.source` and its helpers.
`panicked` models a Go runtime panic (index out of range). -/
inductive SourceErr where
  | noSourcesArg
  | illegalStateBusy
  | emptyRawData
  | duplicateContent (path1 path2 : String)
  | panicked
  | noValidSources
deriving DecidableEq

/-- `Client.sourceBytes`: reject empty buffers, then build a
`SOURCE_ITEM_TYPE_CONTENT_UNKNOWN` descriptor whose path is the synthetic
caller-location string and whose digest is the content hash. -/
def sourceBytes (callerPath : String) (b : Bytes) : Except SourceErr SourceItem :=
  if b.isEmpty then .error .emptyRawData
  else .ok ⟨SOURCE_ITEM_TYPE_CONTENT_UNKNOWN, callerPath, "", b, b⟩

/-- The argument loop of `Client.source` over raw byte buffers (each with
its caller-location string). -/
def collectBytesArgs : List (String × Bytes) → Except SourceErr (List SourceItem)
  | [] => .ok []
  | (p, b) :: rest =>
    match sourceBytes p b with
    | .error e => .error e
    | .ok si =>
      match collectBytesArgs rest with
      | .error e => .error e
      | .ok l => .ok (si :: l)

/-- First index `j ≥ start` (walking `l`, which is the suffix of the
scanned slice beginning at `start`) whose digest equals `target`. -/
def firstDupIdx (target : Bytes) : List SourceItem → Nat → Option Nat
  | [], _ => none
  | s :: rest, start =>
    if s.md5 = target then some start else firstDupIdx target rest (start + 1)

/-- The duplicate-digest scan of `Client.source` (its two nested loops),
including the final values of the loop variables `i` and `j` that the
error path indexes with:
 - a match inside the new batch at `(i0, j0)` leaves `i = i0 + 1` and
   `j = j0 + 1`, because each loop's post-increment runs once more after
   the body sets `se2`;
 - a match against the already-pending batch leaves `i = i0 + 1` and
   `j = n` (the inner batch loop ran to completion and the pending loop
   uses its own shadowed `j`), with `se2` the pending slice.
Returns `(i, j, fromBatch)` on a match. -/
def dedupOuter (n : Nat) (pending : List SourceItem) :
    List SourceItem → Nat → Option (Nat × Nat × Bool)
  | [], _ => none
  | s :: rest, i =>
    match firstDupIdx s.md5 rest (i + 1) with
    | some j0 => some (i + 1, j0 + 1, true)
    | none =>
      match firstDupIdx s.md5 pending 0 with
      | some _ => some (i + 1, n, false)
      | none => dedupOuter n pending rest (i + 1)

/-- The deferred state change of `Client.source`. -/
def sourceApplyDefer (c : Client) : Client :=
  { c with
    state := if c.sourcesTmp.isEmpty ∧ c.storage.isSome then LLS_READY
             else LLS_STANDBY }

/-- The tail of `Client.source` after the argument loop: the duplicate
scan (whose error report indexes `sources[i]` and `se2[j]` with the
post-incremented loop variables — out-of-range indexes are a Go panic),
the no-valid-sources check, and the append to the pending set. -/
def sourceFinish (c : Client) (newSources : List SourceItem) :
    Client × Option SourceErr :=
  match dedupOuter newSources.length c.sourcesTmp newSources 0 with
  | some (i, j, fromBatch) =>
    match newSources.get? i,
        (if fromBatch then newSources.get? j else c.sourcesTmp.get? j) with
    | some s1, some s2 =>
      (sourceApplyDefer c, some (.duplicateContent s1.path s2.path))
    | _, _ => (sourceApplyDefer c, some .panicked)
  | none =>
    if newSources.isEmpty then (sourceApplyDefer c, some .noValidSources)
    else
      (sourceApplyDefer
        { c with sourcesTmp :=
            if c.sourcesTmp.isEmpty then newSources
            else c.sourcesTmp ++ newSources },
        none)

/-- `Client.source` restricted to raw byte-buffer arguments: the
empty-argument check, the state guard (compare-and-swap from Standby or
Ready into SourcePending), the argument loop, and the finishing scan.  The
deferred state change applies on every exit past the guard. -/
def clientSourceBytes (c : Client) (bufs : List (String × Bytes)) :
    Client × Option SourceErr :=
  if bufs.isEmpty then (c, some .noSourcesArg)
  else if ¬(c.state = LLS_STANDBY ∨ c.state = LLS_READY) then
    (c, some .illegalStateBusy)
  else
    let cPending := { c with state := LLS_SOURCE_PENDING }
    match collectBytesArgs bufs with
    | .error e => (sourceApplyDefer cPending, some e)
    | .ok newSources => sourceFinish cPending newSources

/-- The external YAML and TOML decoders (`yaml.Unmarshal`,
`toml.Unmarshal`), as a parameter of the load pipeline: `none` models a
decode error. -/
structure Decoders where
  yaml : Bytes → Option Doc
  toml : Bytes → Option Doc

/-- The distinct failure outcomes of `Client.load` and `Client.loadItem`. -/
inductive LoadErr where
  | illegalStateNoSource
  | illegalStateBusy
  | decodeFailed
  | internalUnexpectedType
  | emptyContent
  | metaFailed (e : MetaErr)
  | scanFailed (e : ScanErr)
  | noSourcesCounted
  | notFound
deriving DecidableEq

/-- The decode step of `Client.loadItem`: dispatch on the descriptor kind;
unknown raw content tries YAML then TOML, the first success fixing the
resolved kind on the local copy (which the caller drops, as in the
source).  An unrecognized kind is the internal-error branch. -/
def decodeSourceItem (d : Decoders) (si : SourceItem) :
    Except LoadErr (SourceItem × Doc) :=
  if si.itemType = SOURCE_ITEM_TYPE_FILE_YAML then
    match d.yaml si.content with
    | some r => .ok (si, r)
    | none => .error .decodeFailed
  else if si.itemType = SOURCE_ITEM_TYPE_FILE_TOML then
    match d.toml si.content with
    | some r => .ok (si, r)
    | none => .error .decodeFailed
  else if si.itemType = SOURCE_ITEM_TYPE_CONTENT_UNKNOWN then
    match d.yaml si.content with
    | some r => .ok ({ si with itemType := SOURCE_ITEM_TYPE_CONTENT_YAML }, r)
    | none =>
      match d.toml si.content with
      | some r => .ok ({ si with itemType := SOURCE_ITEM_TYPE_CONTENT_TOML }, r)
      | none => .error .decodeFailed
  else .error .internalUnexpectedType

/-- The locale name `Client.scan` works with: it re-reads the
`SourceItem` from `sourcesTmp` — a fresh by-value copy, so its
`LocaleName` is the one recorded at registration time, not the one
`loadMetaData` wrote onto `loadItem`'s local copy. -/
def scanLocaleName (sourcesTmp : List SourceItem) (idx : Nat) : String :=
  match sourcesTmp.get? idx with
  | some si => si.localeName
  | none => ""

/-- The locale fetched or lazily created by `Client.scan`. -/
def scanLocale (storageTmp : List (String × Locale)) (lcName : String) : Locale :=
  match alookup storageTmp lcName with
  | some l => l
  | none => makeLocale lcName

/-- `Client.scan`: fetches or creates the locale in the provisional
registry, merges the document into its root, then promotes all staged
entries, incrementing the locale's phrase counter once per promoted
entry.  (In the source a locale created here is inserted before the merge
and keeps partial mutations on a merge error; the whole provisional
registry is discarded on any load failure, so only the success shape is
observable and is what this returns.) -/
def clientScan (sourcesTmp : List SourceItem) (storageTmp : List (String × Locale))
    (root : Doc) (idx : Nat) (overwrite : Bool) :
    Except LoadErr (List (String × Locale)) :=
  match (scanLocale storageTmp (scanLocaleName sourcesTmp idx)).root with
  | none => .error .internalUnexpectedType
  | some rootNode =>
    match nodeScan sourcesTmp idx overwrite rootNode root with
    | .error e => .error (.scanFailed e)
    | .ok rootNode2 =>
      .ok (ainsert storageTmp (scanLocaleName sourcesTmp idx)
        { scanLocale storageTmp (scanLocaleName sourcesTmp idx) with
            root := some (promoteNode rootNode2).1,
            phrasesCount :=
              (scanLocale storageTmp (scanLocaleName sourcesTmp idx)).phrasesCount +
                (promoteNode rootNode2).2 })

/-- `Client.loadItem`: decode the descriptor's content, reject empty
documents, extract metadata (on a by-value copy of the descriptor — the
copy, carrying the extracted locale name, is dropped when `Client.scan`
re-reads the original), then merge. -/
def loadItem (d : Decoders) (sourcesTmp : List SourceItem)
    (storageTmp : List (String × Locale)) (idx : Nat) (overwrite : Bool) :
    Except LoadErr (List (String × Locale)) :=
  match sourcesTmp.get? idx with
  | none => .error .internalUnexpectedType
  | some sourceItem =>
    match decodeSourceItem d sourceItem with
    | .error e => .error e
    | .ok (siCopy, rootMap) =>
      if rootMap.isEmpty then .error .emptyContent
      else
        match loadMetaData siCopy rootMap with
        | .error e => .error (.metaFailed e)
        | .ok (_, rootMap2) => clientScan sourcesTmp storageTmp rootMap2 idx overwrite

/-- The document loop of `Client.load`
(`for i := 0; i < n && err == nil; i++`). -/
def loadLoop (d : Decoders) (sourcesTmp : List SourceItem) (overwrite : Bool) :
    List Nat → List (String × Locale) →
    (List (String × Locale)) × Option LoadErr
  | [], st => (st, none)
  | i :: rest, st =>
    match loadItem d sourcesTmp st i overwrite with
    | .error e => (st, some e)
    | .ok st2 => loadLoop d sourcesTmp overwrite rest st2

/-- Total phrase count over the provisional registry. -/
def totalPhrases (st : List (String × Locale)) : Nat :=
  st.foldl (fun a p => a + p.2.phrasesCount) 0

/-- The success-path pass over the provisional registry: drop every node's
staging map (`node.contentTmp = nil`). -/
def publishLocales (st : List (String × Locale)) : List (String × Locale) :=
  st.map (fun p => (p.1, { p.2 with root := p.2.root.map clearTmpNode }))

/-- The deferred state change of `Client.load`. -/
def loadApplyDefer (c : Client) : Client :=
  { c with state := if c.storage.isSome then LLS_READY else LLS_STANDBY }

/-- `SourceItem.content = nil` after the loop (kept for the committed
`sources` slice; the pending slice is truncated anyway). -/
def clearContentItem (si : SourceItem) : SourceItem := { si with content := [] }

/-- The body of `Client.load` once the state guard has admitted it: the
no-pending-sources check, the document loop over the pending descriptors
(with the overwrite switch read from the configuration), and either the
failure cleanup (pending descriptors truncated, provisional registry
dropped, live registry untouched) or the commit (provisional registry
published wholesale, totals updated, default-locale pointer reset).  The
deferred state change applies on every exit.  (`localesTotal` is set from
`len(c.storageTmp)` after `storageTmp` was already set to nil, hence 0, as
in the source.) -/
def loadPhase (c : Client) (d : Decoders) : Client × Option LoadErr :=
  if c.sourcesTmp.isEmpty then (loadApplyDefer c, some .noSourcesCounted)
  else
    match loadLoop d c.sourcesTmp c.config.overwriteExistingKey
        (List.range c.sourcesTmp.length) (c.storageTmp.getD []) with
    | (_, some e) =>
      (loadApplyDefer { c with sourcesTmp := [], storageTmp := none }, some e)
    | (st2, none) =>
      if totalPhrases st2 = 0 then
        (loadApplyDefer { c with sourcesTmp := [], storageTmp := none },
          some .notFound)
      else
        (loadApplyDefer
          { c with
            storage := some (publishLocales st2),
            storageTmp := none,
            sources := c.sourcesTmp.map clearContentItem,
            sourcesTmp := [],
            phrasesTotal := totalPhrases st2,
            localesTotal := 0,
            defaultLocale := none },
          none)

/-- `Client.load`: the state guards (a Ready state means no new sources
were registered; the compare-and-swap admits only Standby), then the load
body. -/
def clientLoad (c : Client) (d : Decoders) : Client × Option LoadErr :=
  if c.state = LLS_READY then (c, some .illegalStateNoSource)
  else if c.state ≠ LLS_STANDBY then (c, some .illegalStateBusy)
  else loadPhase { c with state := LLS_LOAD_PENDING } d

/-- `committedCount` through a possibly-nil root pointer. -/
def committedCountOpt : Option LocaleNode → Nat
  | none => 0
  | some r => committedCount r

/-- A properly initialized locale holding a given root (as `makeLocale`
produces, with an arbitrary name): used to look phrases up through
`Locale.Tr` in node-level statements. -/
def localeWithRoot (r : LocaleNode) : Locale :=
  { ownerNil := false, root := some r, name := "xx_XX", phrasesCount := 0 }

/-- The per-locale invariant maintained by the load loop: a non-nil root
whose maps all have unique keys, an empty staging area, and a phrase
counter equal to the committed leaf count of the subtree. -/
def localeInv (loc : Locale) : Prop :=
  ∃ r, loc.root = some r ∧ nodeWF r = true ∧ nodeTmpEmpty r = true ∧
    loc.phrasesCount = committedCount r

/-- The locale-name pattern in the spec's wording and order: length 5,
positions 0 and 1 lowercase, position 2 an underscore, positions 3 and 4
uppercase. -/
def localeNameSpecCheck (s : String) : Bool :=
  let cs := s.toList
  decide (cs.length = 5) &&
  charIsLowerCaseLetter (cs.getD 0 ' ') &&
  charIsLowerCaseLetter (cs.getD 1 ' ') &&
  decide (cs.getD 2 ' ' = '_') &&
  charIsUpperCaseLetter (cs.getD 3 ' ') &&
  charIsUpperCaseLetter (cs.getD 4 ' ')

/-- The spec's end-to-end scenario, document 1: a raw buffer declaring
`en_US` in its metadata with the leaf key `a/b`. -/
def c1Doc1 : Doc :=
  [("__metadata__", .vMap [("locale", .vStr "en_US")]),
   ("a", .vMap [("b", .vStr "Hello, \x7b\x7bname\x7d\x7d!")])]

/-- The spec's end-to-end scenario, document 2: `zh_CN`, same leaf key. -/
def c1Doc2 : Doc :=
  [("__metadata__", .vMap [("locale", .vStr "zh_CN")]),
   ("a", .vMap [("b", .vStr "Ni hao, \x7b\x7bname\x7d\x7d!")])]

/-- Decoders for the end-to-end scenario: buffer `[1]` decodes (as YAML)
to the `en_US` document, buffer `[2]` to the `zh_CN` document. -/
def c1Dec : Decoders :=
  { yaml := fun b =>
      if b = [1] then some c1Doc1 else if b = [2] then some c1Doc2 else none,
    toml := fun _ => none }

/-- The client after registering the two raw buffers of the end-to-end
scenario on a fresh client. -/
def c1Reg : Client :=
  (clientSourceBytes zeroClient [("caller.go:10", [1]), ("caller.go:11", [2])]).1

/-- The client after the subsequent load attempt. -/
def c1Loaded : Client := (loadPhase c1Reg c1Dec).1

/-- Document declaring `en_US` with the flat leaf `k ↦ v1`. -/
def owDoc1 : Doc :=
  [("__metadata__", .vMap [("locale", .vStr "en_US")]), ("k", .vStr "v1")]

/-- Document declaring `en_US` with the flat leaf `k ↦ v2`. -/
def owDoc2 : Doc :=
  [("__metadata__", .vMap [("locale", .vStr "en_US")]), ("k", .vStr "v2")]

/-- Decoders for the duplicate-key scenarios. -/
def owDec : Decoders :=
  { yaml := fun b =>
      if b = [1] then some owDoc1 else if b = [2] then some owDoc2 else none,
    toml := fun _ => none }

/-- A client holding the two duplicate-key documents as pending sources,
with overwrite disabled. -/
def owClientNoOverwrite : Client :=
  { zeroClient with
    sourcesTmp := [⟨150, "p1", "", [1], [1]⟩, ⟨150, "p2", "", [2], [2]⟩] }

/-- The same client with overwrite enabled. -/
def owClientOverwrite : Client :=
  { owClientNoOverwrite with config := ⟨true, false, false⟩ }

/-- A file descriptor whose path embeds the locale name `en_US` (C4's
failing input, paired with metadata declaring `zh_CN`). -/
def c4Item : SourceItem := ⟨100, "/locales/en_US/a.yml", "", [], []⟩

/-- A document declaring `zh_CN` in its metadata, with one phrase. -/
def c4Doc : Doc :=
  [("__metadata__", .vMap [("locale", .vStr "zh_CN")]), ("k", .vStr "v")]

/-- A document with two `__metadata__` sections (case-insensitive match). -/
def c4DocTwoMeta : Doc :=
  [("__MeTaDaTa__", .vMap [("locale", .vStr "zh_CN")]),
   ("__Metadata__", .vMap [("locale", .vStr "zh_CN")]),
   ("k", .vStr "v")]

/-- A document with no metadata at all. -/
def c4DocNoMeta : Doc := [("k", .vStr "v")]

/-- Decoders serving `c4Doc` for the file content of `c4Item`. -/
def c4Dec : Decoders :=
  { yaml := fun _ => some c4Doc, toml := fun _ => none }

/-- A client in the middle of `Client.source` (state SourcePending), with
no pending sources: the receiver of `sourceFinish` in the C5 scenarios. -/
def c5Client : Client := { zeroClient with state := LLS_SOURCE_PENDING }

/-- The same with one pending source of content `[7]`. -/
def c5ClientPending : Client :=
  { c5Client with sourcesTmp := [⟨150, "pOld", "", [7], [7]⟩] }

/-- Two raw-buffer descriptors with byte-for-byte identical content. -/
def c5TwoDup : List SourceItem :=
  [⟨150, "p1", "", [7], [7]⟩, ⟨150, "p2", "", [7], [7]⟩]

/-- Three descriptors: the first two share identical content, the third
(`p3`, content `[8]`) conflicts with nothing. -/
def c5ThreeWithDup : List SourceItem :=
  [⟨150, "p1", "", [7], [7]⟩, ⟨150, "p2", "", [7], [7]⟩, ⟨150, "p3", "", [8], [8]⟩]

/-- A one-element new batch whose content equals the pending source's. -/
def c5NewVsPending : List SourceItem := [⟨150, "pNew", "", [7], [7]⟩]

/-- A committed `en_US` locale holding the phrase `hello ↦ Hi!`. -/
def c2Locale : Locale := ⟨false, some ⟨[], [("hello", "Hi!")], [], [0]⟩, "en_US", 1⟩

/-- A client with a previously committed registry and one pending source
whose content no decoder accepts: the witness input for commit atomicity
(the single document of the batch fails to decode). -/
def c2Client : Client :=
  { zeroClient with
    storage := some [("en_US", c2Locale)],
    sourcesTmp := [⟨150, "pBad", "", [9], [9]⟩] }

/-- Decoders that reject everything. -/
def c2Dec : Decoders := { yaml := fun _ => none, toml := fun _ => none }

/-- The flat all-scalar document of the round-trip witness: an integer, a
boolean, the 64-bit float closest to 3.14159 (which is
`3537115888337719 / 2^50`), an untyped nil and a string. -/
def c6Doc : Doc :=
  [("i", .vInt 42), ("bt", .vBool true), ("f", .vFloat 3537115888337719 50),
   ("nn", .vNull), ("s", .vStr "hello")]

/-- The client after successfully loading the two duplicate-key documents
with overwrite enabled (the phrase-counter counterexample input). -/
def c9Result : Client := (loadPhase owClientOverwrite owDec).1

/-- A client with only the first duplicate-key document pending: a
successful single-document load (the phrase-counter witness input). -/
def c9okClient : Client :=
  { zeroClient with sourcesTmp := [⟨150, "p1", "", [1], [1]⟩] }

/-- A manually constructed `Locale` whose owner back-pointer is nil: an
invalid receiver in the sense of `Locale.isValid`. -/
def ownerlessLocale : Locale :=
  { ownerNil := true, root := some emptyLocaleNode, name := "en_US", phrasesCount := 0 }

theorem and_reorder_six : ∀ a b c d e f : Bool,
    (a && b && c && d && e && f) = (a && b && c && f && d && e) := by decide

/-- Claim C8: for every string `s`, `isValidLocaleName s` holds iff `s`
has length 5, `s[0]` and `s[1]` are ASCII lowercase letters, `s[2]` is the
underscore, and `s[3]` and `s[4]` are ASCII uppercase letters. -/
theorem c8_isValidLocaleName_spec (s : String) :
    isValidLocaleName s = localeNameSpecCheck s := by
  unfold isValidLocaleName localeNameSpecCheck
  exact and_reorder_six _ _ _ _ _ _

/-- Claim C10: every exported `Locale` method is total on invalid
receivers — for a nil `Locale`, or one whose owner client or root node is
nil, `Tr` returns the LocaleIsNil sentinel, `Name` returns the empty
string, and `MarkAsDefault` leaves the owning client unchanged. -/
theorem c10_invalid_locale_total (l : Option Locale)
    (h : localeIsValid l = false) :
    (∀ key args, localeTr l key args = "i18nErr: LocaleIsNil. Key: " ++ key) ∧
    localeName l = "" ∧ ∀ c, markAsDefault c l = c := by
  refine ⟨fun key args => ?_, ?_, fun c => ?_⟩
  · simp only [localeTr, h, if_pos]
    rfl
  · simp [localeName, h]
  · simp [markAsDefault, h]

theorem c10_invalid_locale_total_witness :
    localeIsValid (some ownerlessLocale) = false ∧
    localeTr (some ownerlessLocale) "k" [] = "i18nErr: LocaleIsNil. Key: k" ∧
    localeName (some ownerlessLocale) = "" ∧
    markAsDefault zeroClient (some ownerlessLocale) = zeroClient := by
  have h := c10_invalid_locale_total (some ownerlessLocale) (by decide)
  exact ⟨by decide, h.1 "k" [], h.2.1, h.2.2 zeroClient⟩

/-- Claim C7: on a client on which no load has ever completed succesfully
(live registry and default-locale pointer still in their initial nil
state), `Tr` returns exactly the LocaleIsNil sentinel string for every
locale name, key and argument mapping — it always returns a string and
never fails. -/
theorem c7_tr_before_any_load (c : Client) (hs : c.storage = none)
    (hd : c.defaultLocale = none) (nm key : String) (args : Args) :
    clientTr c nm key args = "i18nErr: LocaleIsNil. Key: " ++ key := by
  have hdl : getDefaultLocale c = none := by simp [getDefaultLocale, hd]
  have hgl : getLocale c nm = none := by simp [getLocale, hs]
  have hLC : clientLC c nm = none := by
    unfold clientLC
    rw [hgl]
    simp [hdl]
  unfold clientTr
  rw [hLC]
  rfl

theorem c7_tr_before_any_load_witness :
    zeroClient.storage = none ∧ zeroClient.defaultLocale = none ∧
    clientTr zeroClient "en_US" "a/b" [("name", "Frank")] =
      "i18nErr: LocaleIsNil. Key: a/b" :=
  ⟨rfl, rfl, c7_tr_before_any_load zeroClient rfl rfl "en_US" "a/b" _⟩

/-- Claim C5 (code bug): registering two byte-for-byte identical units
does detect the duplicate, but the error path indexes the batch with the
post-incremented loop variables: with a batch of two identical raw
buffers (or one new buffer equal to a pending one) the index is out of
range — a Go panic — and with a larger batch the reported origins are the
wrong items (`p3` below holds content `[8]`, conflicting with nothing,
yet is reported).  The pending set is never extended either way. -/
theorem c5_duplicate_registration_panics :
    (sourceFinish c5Client c5TwoDup).2 = some .panicked ∧
    (sourceFinish c5Client c5TwoDup).1.sourcesTmp = [] ∧
    (sourceFinish c5ClientPending c5NewVsPending).2 = some .panicked ∧
    (sourceFinish c5ClientPending c5NewVsPending).1.sourcesTmp.length = 1 ∧
    (sourceFinish c5Client c5ThreeWithDup).2 =
      some (.duplicateContent "p2" "p3") ∧
    (c5ThreeWithDup.get? 2).map (fun s => s.md5) ≠
      (c5ThreeWithDup.get? 0).map (fun s => s.md5) := by decide

/-- Claim C4 (code bug): the two-sections and neither-source cases fail as
claimed, but a document whose locale name is declared both in
`__metadata__` and in its origin path does not fail: `findLocaleInFilepath`
(which does extract `en_US` from the path) is never invoked by the load
pipeline, so `loadMetaData` sees an empty locale name, accepts the
metadata's `zh_CN`, and the whole `loadItem` succeeds — registering the
document under the empty locale name, since `Client.scan` re-reads the
descriptor from `sourcesTmp`. -/
theorem c4_metadata_resolution_evidence :
    ((exOk (loadMetaData c4Item c4Doc)).map (fun p => p.1.localeName) =
      some "zh_CN") ∧
    ((exOk (findLocaleInFilepath c4Item)).map (fun s => s.localeName) =
      some "en_US") ∧
    ((exOk (loadItem c4Dec [c4Item] [] 0 false)).map
      (fun st => st.map Prod.fst) = some [""]) ∧
    (exErr (loadMetaData c4Item c4DocTwoMeta) =
      some (.ambiguousSections "__MeTaDaTa__" "__Metadata__")) ∧
    ((exErr (loadMetaData c4Item c4DocTwoMeta)).map MetaErr.isAmbiguous =
      some true) ∧
    (exErr (loadMetaData c4Item c4DocNoMeta) = some .notFoundTag) ∧
    (MetaErr.isAmbiguous .notFoundTag = false) := by decide

/-- Claim C1 (code bug): the spec's end-to-end scenario fails on the code.
Registration of the two raw buffers succeeds, but `Client.scan` re-reads
each `SourceItem` from `sourcesTmp`, so the locale names `loadMetaData`
wrote onto `loadItem`'s local copies are lost: both documents merge into a
locale named `""`, the second document's `a/b` collides with the first
(`AlreadyExist`, reporting the first buffer's origin), the whole load
aborts, and every subsequent `translate` — including after the attempted
`MarkAsDefault`, which is a no-op because `LC "en_US"` is nil — returns
the LocaleIsNil sentinel instead of the phrases. -/
theorem c1_end_to_end_fails :
    (clientSourceBytes zeroClient [("caller.go:10", [1]), ("caller.go:11", [2])]).2 =
      none ∧
    (loadPhase c1Reg c1Dec).2 =
      some (.scanFailed (.alreadyExist ["caller.go:10"] "b"
        "Ni hao, \x7b\x7bname\x7d\x7d!" "Hello, \x7b\x7bname\x7d\x7d!")) ∧
    c1Loaded.storage.isNone = true ∧
    clientTr c1Loaded "en_US" "a/b" [("name", "Frank")] =
      "i18nErr: LocaleIsNil. Key: a/b" ∧
    clientTr c1Loaded "zh_CN" "a/b" [("name", "Dave")] =
      "i18nErr: LocaleIsNil. Key: a/b" ∧
    localeIsValid (clientLC c1Loaded "en_US") = false ∧
    markAsDefault c1Loaded (clientLC c1Loaded "en_US") = c1Loaded ∧
    clientTr (markAsDefault c1Loaded (clientLC c1Loaded "en_US")) "ru_RU" "a/b" [] =
      "i18nErr: LocaleIsNil. Key: a/b" := by
  have hv : localeIsValid (clientLC c1Loaded "en_US") = false := by decide
  have hmd : markAsDefault c1Loaded (clientLC c1Loaded "en_US") = c1Loaded := by
    simp [markAsDefault, hv]
  refine ⟨by decide, by decide, by decide, by decide, by decide, hv, hmd, ?_⟩
  rw [hmd]
  decide

/-- Claim C9's counterexample: loading two documents that contribute the
same leaf key to the same locale under the overwrite policy succeeds, and
leaves a phrase counter of 2 while the locale's subtree holds a single
committed leaf phrase. -/
theorem c9_counterexample_overwrite_double_count :
    (loadPhase owClientOverwrite owDec).2 = none ∧
    (alookup (c9Result.storage.getD []) "").map (fun l => l.phrasesCount) =
      some 2 ∧
    (alookup (c9Result.storage.getD []) "").map
      (fun l => committedCountOpt l.root) = some 1 ∧
    (2 : Nat) ≠ 1 := by decide

/-- Claim C6's counterexample: a document with the flat scalar leaf key
`a/b` merges and promotes successfully, but looking that leaf key up
returns the not-found sentinel rather than the stored string, because
`Locale.Tr` splits the key on `/`. -/
theorem c6_counterexample_slash_key :
    (exOk (nodeScan [] 0 false emptyLocaleNode [("a/b", Value.vStr "x")])).map
      (fun n => localeTr (some (localeWithRoot (promoteNode n).1)) "a/b" []) =
      some "i18nErr: TranslationNotFound. Key: a/b" ∧
    canonicalScalarString (Value.vStr "x") = "x" ∧
    "i18nErr: TranslationNotFound. Key: a/b" ≠ "x" := by decide

/-- Claim C3: the duplicate-key store rule.  In general, a store of a key
already present in the node's committed map fails with AlreadyExist
carrying the origins that contributed to the node, the new value and the
old value when overwrite is off, and replaces (in staging) when it is on;
concretely, the two-document duplicate-key load fails wholesale without
overwrite and succeeds with it, the second document's value winning. -/
theorem c3_store_rule :
    (∀ (srcs : List SourceItem) (n : LocaleNode) (k v old : String),
      alookup n.content k = some old →
      nodeStore srcs n k v false =
        .error (.alreadyExist (originPaths srcs n.usedSourcesIdx) k v old) ∧
      nodeStore srcs n k v true =
        .ok { n with contentTmp := ainsert n.contentTmp k v }) ∧
    (loadPhase owClientNoOverwrite owDec).2 =
      some (.scanFailed (.alreadyExist ["p1"] "k" "v2" "v1")) ∧
    (loadPhase owClientOverwrite owDec).2 = none ∧
    (alookup ((loadPhase owClientOverwrite owDec).1.storage.getD []) "").map
      (fun l => localeTr (some l) "k" []) = some "v2" := by
  refine ⟨fun srcs n k v old h => ⟨?_, ?_⟩, by decide, by decide, by decide⟩
  · simp [nodeStore, h]
  · simp [nodeStore, h]

theorem clientLC_none_of_not_ready (c : Client) (h : ¬c.state = LLS_READY)
    (nm : String) : clientLC c nm = none := by
  have hdl : getDefaultLocale c = none := by simp [getDefaultLocale, h]
  have hgl : getLocale c nm = none := by simp [getLocale, h]
  unfold clientLC
  rw [hgl]
  simp [hdl]

theorem clientTr_none_of_not_ready (c : Client) (h : ¬c.state = LLS_READY)
    (nm key : String) (args : Args) :
    clientTr c nm key args = "i18nErr: LocaleIsNil. Key: " ++ key := by
  unfold clientTr
  rw [clientLC_none_of_not_ready c h nm]
  rfl

/-- Claim C2: commit atomicity.  If any document of the batch fails (the
load body returns an error for any reason past the state guard), the
resulting client is exactly the input client with the pending descriptors
truncated, the provisional registry dropped and the state reverted — the
live registry, the default locale and every other field are untouched; in
particular, with no previously committed registry every subsequent lookup
still returns the LocaleIsNil sentinel, and with one the state returns to
Ready over the unchanged registry.  (`storageTmp = none` holds whenever
the load body is entered: both commit and rollback clear it.) -/
theorem c2_load_failure_atomic (c : Client) (d : Decoders)
    (hTmp : c.storageTmp = none) (hFail : (loadPhase c d).2.isSome = true) :
    (loadPhase c d).1 =
      loadApplyDefer { c with sourcesTmp := [], storageTmp := none } ∧
    (loadPhase c d).1.storage = c.storage ∧
    (loadPhase c d).1.sourcesTmp = [] ∧
    (loadPhase c d).1.storageTmp = none ∧
    (loadPhase c d).1.defaultLocale = c.defaultLocale ∧
    (loadPhase c d).1.state =
      (if c.storage.isSome then LLS_READY else LLS_STANDBY) ∧
    (c.storage = none →
      ∀ nm key args, clientTr (loadPhase c d).1 nm key args =
        "i18nErr: LocaleIsNil. Key: " ++ key) := by
  have main : (loadPhase c d).1 =
      loadApplyDefer { c with sourcesTmp := [], storageTmp := none } := by
    unfold loadPhase at hFail ⊢
    by_cases hE : c.sourcesTmp.isEmpty
    · rw [if_pos hE] at hFail ⊢
      have h1 : c.sourcesTmp = [] := List.isEmpty_iff.mp hE
      have hcc : ({ c with sourcesTmp := ([] : List SourceItem), storageTmp := (none : Option (List (String × Locale))) }) = c := by
        obtain ⟨f1, f2, f3, f4, f5, f6, f7, f8, f9⟩ := c
        cases hTmp
        cases h1
        rfl
      rw [hcc]
    · rw [if_neg hE] at hFail ⊢
      rcases hLL : loadLoop d c.sourcesTmp c.config.overwriteExistingKey
          (List.range c.sourcesTmp.length) (c.storageTmp.getD []) with ⟨st2, err⟩
      cases err with
      | some e => rfl
      | none =>
        dsimp only
        rw [hLL] at hFail
        dsimp only at hFail
        by_cases hT : totalPhrases st2 = 0
        · rw [if_pos hT]
        · rw [if_neg hT] at hFail
          simp at hFail
  refine ⟨main, ?_, ?_, ?_, ?_, ?_, ?_⟩
  · rw [main]; rfl
  · rw [main]; rfl
  · rw [main]; rfl
  · rw [main]; rfl
  · rw [main]; rfl
  · intro hs nm key args
    rw [main]
    apply clientTr_none_of_not_ready
    show ¬(loadApplyDefer _).state = LLS_READY
    simp only [loadApplyDefer, hs]
    decide

theorem c2_load_failure_atomic_witness :
    c2Client.storageTmp = none ∧
    (loadPhase c2Client c2Dec).2.isSome = true ∧
    (loadPhase c2Client c2Dec).1.storage = c2Client.storage ∧
    (loadPhase c2Client c2Dec).1.sourcesTmp = [] ∧
    (loadPhase c2Client c2Dec).1.state = LLS_READY ∧
    clientTr (loadPhase c2Client c2Dec).1 "en_US" "hello" [] = "Hi!" := by
  have h := c2_load_failure_atomic c2Client c2Dec rfl (by decide)
  refine ⟨rfl, by decide, h.2.1, h.2.2.1, ?_, by decide⟩
  rw [h.2.2.2.2.2.1]
  decide

theorem c3_store_rule_witness :
    alookup (LocaleNode.mk [] [("k", "old")] [] [0]).content "k" = some "old" ∧
    nodeStore [⟨150, "pw", "", [], []⟩] (LocaleNode.mk [] [("k", "old")] [] [0])
      "k" "new" false =
      .error (.alreadyExist
        (originPaths [⟨150, "pw", "", [], []⟩]
          (LocaleNode.mk [] [("k", "old")] [] [0]).usedSourcesIdx)
        "k" "new" "old") :=
  ⟨by decide,
    (c3_store_rule.1 [⟨150, "pw", "", [], []⟩]
      (LocaleNode.mk [] [("k", "old")] [] [0]) "k" "new" "old" (by decide)).1⟩

theorem alookup_ainsert_self {α : Type} (l : List (String × α)) (k : String)
    (v : α) : alookup (ainsert l k v) k = some v := by
  induction l with
  | nil => simp [ainsert, alookup]
  | cons hd t ih =>
    obtain ⟨k2, w⟩ := hd
    by_cases hk : k2 = k
    · simp [ainsert, alookup, hk]
    · simp [ainsert, alookup, hk, ih]

theorem alookup_ainsert_ne {α : Type} (l : List (String × α)) (k k2 : String)
    (v : α) (h : k2 ≠ k) : alookup (ainsert l k v) k2 = alookup l k2 := by
  have h2 : ¬(k = k2) := fun e => h e.symm
  induction l with
  | nil => simp [ainsert, alookup, h2]
  | cons hd t ih =>
    obtain ⟨k3, w⟩ := hd
    by_cases hk : k3 = k
    · subst hk
      simp [ainsert, alookup, h2]
    · by_cases hk2 : k3 = k2
      · simp [ainsert, alookup, hk, hk2, h, h2]
      · simp [ainsert, alookup, hk, hk2, h, h2, ih]

theorem alookup_eq_none {α : Type} {l : List (String × α)} {k : String}
    (h : alookup l k = none) : ∀ p ∈ l, p.1 ≠ k := by
  induction l with
  | nil => simp
  | cons hd t ih =>
    obtain ⟨k2, w⟩ := hd
    simp only [alookup] at h
    by_cases hk : k2 = k
    · simp [hk] at h
    · intro p hp
      rcases List.mem_cons.mp hp with hp | hp
      · subst hp
        exact hk
      · exact ih (by simpa [hk] using h) p hp

theorem alookup_mem {α : Type} {l : List (String × α)} {k : String} {v : α}
    (h : alookup l k = some v) : (k, v) ∈ l := by
  induction l with
  | nil => simp [alookup] at h
  | cons hd t ih =>
    obtain ⟨k2, w⟩ := hd
    simp only [alookup] at h
    by_cases hk : k2 = k
    · subst hk
      simp at h
      subst h
      exact List.mem_cons_self _ _
    · exact List.mem_cons_of_mem _ (ih (by simpa [hk] using h))

theorem mem_ainsert {α : Type} {l : List (String × α)} {k : String} {v : α}
    {p : String × α} (h : p ∈ ainsert l k v) : p ∈ l ∨ p = (k, v) := by
  induction l with
  | nil => simpa [ainsert] using h
  | cons hd t ih =>
    obtain ⟨k2, w⟩ := hd
    by_cases hk : k2 = k
    · subst hk
      simp only [ainsert, if_pos rfl] at h
      rcases List.mem_cons.mp h with hp | hp
      · exact Or.inr hp
      · exact Or.inl (List.mem_cons_of_mem _ hp)
    · simp only [ainsert, if_neg hk] at h
      rcases List.mem_cons.mp h with hp | hp
      · exact Or.inl (hp ▸ List.mem_cons_self _ _)
      · rcases ih hp with hp2 | hp2
        · exact Or.inl (List.mem_cons_of_mem _ hp2)
        · exact Or.inr hp2

theorem ainsert_length_none {α : Type} (l : List (String × α)) (k : String)
    (v : α) (h : alookup l k = none) :
    (ainsert l k v).length = l.length + 1 := by
  induction l with
  | nil => rfl
  | cons hd t ih =>
    obtain ⟨k2, w⟩ := hd
    simp only [alookup] at h
    by_cases hk : k2 = k
    · simp [hk] at h
    · simp only [ainsert, if_neg hk, List.length_cons]
      rw [ih (by simpa [hk] using h)]

theorem keysNodupB_ainsert {α : Type} (l : List (String × α)) (k : String)
    (v : α) (h : keysNodupB l = true) : keysNodupB (ainsert l k v) = true := by
  induction l with
  | nil => simp [ainsert, keysNodupB, alookup]
  | cons hd t ih =>
    obtain ⟨k2, w⟩ := hd
    simp only [keysNodupB, Bool.and_eq_true] at h
    by_cases hk : k2 = k
    · simp only [ainsert, if_pos hk, keysNodupB, Bool.and_eq_true]
      exact h
    · simp only [ainsert, if_neg hk, keysNodupB, Bool.and_eq_true]
      refine ⟨?_, ih h.2⟩
      rw [alookup_ainsert_ne t k k2 v hk]
      exact h.1

theorem all_ainsert {α : Type} (l : List (String × α)) (k : String) (v : α)
    (f : String × α → Bool) (h : l.all f = true) (hf : f (k, v) = true) :
    (ainsert l k v).all f = true := by
  induction l with
  | nil =>
    simp only [ainsert, List.all_cons, List.all_nil, Bool.and_true]
    exact hf
  | cons hd t ih =>
    obtain ⟨k2, w⟩ := hd
    simp only [List.all_cons, Bool.and_eq_true] at h
    by_cases hk : k2 = k
    · simp only [ainsert, if_pos hk, List.all_cons, Bool.and_eq_true]
      exact ⟨by rw [hk]; exact hf, h.2⟩
    · simp only [ainsert, if_neg hk, List.all_cons, Bool.and_eq_true]
      exact ⟨h.1, ih h.2⟩

theorem foldl_ainsert_lookup_ne {α : Type} (L : List (String × α))
    (init : List (String × α)) (k : String) (h : ∀ p ∈ L, p.1 ≠ k) :
    alookup (L.foldl (fun c q => ainsert c q.1 q.2) init) k = alookup init k := by
  induction L generalizing init with
  | nil => rfl
  | cons q t ih =>
    simp only [List.foldl_cons]
    rw [ih _ (fun p hp => h p (List.mem_cons_of_mem _ hp))]
    exact alookup_ainsert_ne _ _ _ _
      (fun e => h q (List.mem_cons_self _ _) e.symm)

theorem foldl_ainsert_length (tmp content : List (String × String))
    (hnd : keysNodupB tmp = true)
    (hfresh : ∀ p ∈ tmp, alookup content p.1 = none) :
    (tmp.foldl (fun c q => ainsert c q.1 q.2) content).length =
      content.length + tmp.length := by
  induction tmp generalizing content with
  | nil => simp
  | cons q t ih =>
    obtain ⟨qk, qv⟩ := q
    simp only [keysNodupB, Bool.and_eq_true] at hnd
    simp only [List.foldl_cons]
    have hqfresh : alookup content qk = none :=
      hfresh (qk, qv) (List.mem_cons_self _ _)
    have hfresh2 : ∀ p ∈ t, alookup (ainsert content qk qv) p.1 = none := by
      intro p hp
      have hne : p.1 ≠ qk := by
        have := alookup_eq_none (Option.isNone_iff_eq_none.mp hnd.1)
        exact this p hp
      rw [alookup_ainsert_ne _ _ _ _ hne]
      exact hfresh p (List.mem_cons_of_mem _ hp)
    rw [ih (ainsert content qk qv) hnd.2 hfresh2]
    rw [ainsert_length_none _ _ _ hqfresh]
    simp only [List.length_cons]
    omega

theorem foldl_ainsert_nodup (tmp content : List (String × String))
    (h : keysNodupB content = true) :
    keysNodupB (tmp.foldl (fun c q => ainsert c q.1 q.2) content) = true := by
  induction tmp generalizing content with
  | nil => exact h
  | cons q t ih =>
    simp only [List.foldl_cons]
    exact ih _ (keysNodupB_ainsert _ _ _ h)

theorem alookup_isNone_congr {α β : Type} (l1 : List (String × α))
    (l2 : List (String × β)) (h : l1.map Prod.fst = l2.map Prod.fst)
    (k : String) : (alookup l1 k).isNone = (alookup l2 k).isNone := by
  induction l1 generalizing l2 with
  | nil =>
    have : l2 = [] := by
      cases l2 with
      | nil => rfl
      | cons q t => simp at h
    subst this
    rfl
  | cons q t ih =>
    cases l2 with
    | nil => simp at h
    | cons q2 t2 =>
      obtain ⟨qk, qv⟩ := q
      obtain ⟨q2k, q2v⟩ := q2
      simp only [List.map_cons, List.cons.injEq] at h
      simp only [alookup]
      rw [show qk = q2k from h.1]
      by_cases hk : q2k = k
      · simp [hk]
      · simp only [if_neg hk]
        exact ih t2 h.2

theorem keysNodupB_congr {α β : Type} (l1 : List (String × α))
    (l2 : List (String × β)) (h : l1.map Prod.fst = l2.map Prod.fst) :
    keysNodupB l1 = keysNodupB l2 := by
  induction l1 generalizing l2 with
  | nil =>
    have : l2 = [] := by
      cases l2 with
      | nil => rfl
      | cons q t => simp at h
    subst this
    rfl
  | cons q t ih =>
    cases l2 with
    | nil => simp at h
    | cons q2 t2 =>
      obtain ⟨qk, qv⟩ := q
      obtain ⟨q2k, q2v⟩ := q2
      simp only [List.map_cons, List.cons.injEq] at h
      simp only [keysNodupB]
      rw [show qk = q2k from h.1, alookup_isNone_congr t t2 h.2 q2k, ih t2 h.2]

theorem alookup_of_mem_nodup {α : Type} {l : List (String × α)}
    {p : String × α} (hnd : keysNodupB l = true) (hp : p ∈ l) :
    alookup l p.1 = some p.2 := by
  induction l with
  | nil => cases hp
  | cons q t ih =>
    obtain ⟨qk, qv⟩ := q
    simp only [keysNodupB, Bool.and_eq_true] at hnd
    rcases List.mem_cons.mp hp with he | hm
    · subst he
      simp [alookup]
    · simp only [alookup]
      by_cases hk : qk = p.1
      · exfalso
        exact alookup_eq_none (Option.isNone_iff_eq_none.mp hnd.1) p hm hk.symm
      · rw [if_neg hk]
        exact ih hnd.2 hm

theorem alookup_map_val {α β : Type} (l : List (String × α)) (f : α → β)
    (k : String) :
    alookup (l.map (fun q => (q.1, f q.2))) k = (alookup l k).map f := by
  induction l with
  | nil => rfl
  | cons q t ih =>
    obtain ⟨qk, qv⟩ := q
    simp only [List.map_cons, alookup]
    by_cases hk : qk = k <;> simp [hk, ih]

theorem foldl_ainsert_alookup {α : Type} (L : List (String × α)) (k : String)
    (v : α) (hnd : keysNodupB L = true) (hl : alookup L k = some v) :
    ∀ init, alookup (L.foldl (fun c q => ainsert c q.1 q.2) init) k = some v := by
  induction L with
  | nil => simp [alookup] at hl
  | cons q t ih =>
    obtain ⟨qk, qv⟩ := q
    simp only [keysNodupB, Bool.and_eq_true] at hnd
    simp only [alookup] at hl
    intro init
    simp only [List.foldl_cons]
    by_cases hk : qk = k
    · subst hk
      rw [if_pos rfl] at hl
      have hnone : ∀ p ∈ t, p.1 ≠ qk := fun p hp =>
        alookup_eq_none (Option.isNone_iff_eq_none.mp hnd.1) p hp
      rw [foldl_ainsert_lookup_ne t _ qk hnone, alookup_ainsert_self]
      exact hl
    · rw [if_neg hk] at hl
      exact ih hnd.2 hl _

theorem markUsed_content (idx : Nat) (n : LocaleNode) :
    (markUsed idx n).content = n.content := by
  unfold markUsed
  split <;> rfl

theorem markUsed_contentTmp (idx : Nat) (n : LocaleNode) :
    (markUsed idx n).contentTmp = n.contentTmp := by
  unfold markUsed
  split <;> rfl

theorem markUsed_subNodes (idx : Nat) (n : LocaleNode) :
    (markUsed idx n).subNodes = n.subNodes := by
  unfold markUsed
  split <;> rfl

theorem string_mk_toList (s : String) : String.mk s.toList = s := rfl

theorem splitSegs_no_slash : ∀ cs : List Char, slashChar ∉ cs →
    splitSegs cs = [cs] := by
  intro cs
  induction cs with
  | nil => intro _; rfl
  | cons c rest ih =>
    intro h
    have hc : ¬(c = slashChar) := fun e => h (e ▸ List.mem_cons_self c rest)
    simp only [splitSegs]
    rw [ih (fun hm => h (List.mem_cons_of_mem _ hm))]
    simp [hc]

theorem fmtChars_nil_args_aux : ∀ (bound : Nat) (cs : List Char)
    (st : Option (List Char)), cs.length ≤ bound →
    fmtChars [] st cs =
      (match st with
       | none => cs
       | some acc => lbrace :: lbrace :: acc.reverse ++ cs) := by
  intro bound
  induction bound with
  | zero =>
    intro cs st hlen
    have : cs = [] := List.length_eq_zero.mp (Nat.le_zero.mp hlen)
    subst this
    cases st <;> simp [fmtChars]
  | succ b ih =>
    intro cs st hlen
    match cs with
    | [] => cases st <;> simp [fmtChars]
    | [c] => cases st <;> simp [fmtChars]
    | c :: c2 :: rest =>
      have hr : rest.length ≤ b := by
        simp only [List.length_cons] at hlen
        omega
      have hr2 : (c2 :: rest).length ≤ b := by
        simp only [List.length_cons] at hlen ⊢
        omega
      cases st with
      | none =>
        by_cases hbr : c = lbrace ∧ c2 = lbrace
        · simp only [fmtChars, if_pos hbr, ih rest (some []) hr]
          simp [hbr.1, hbr.2]
        · simp only [fmtChars, if_neg hbr, ih (c2 :: rest) none hr2]
      | some acc =>
        by_cases hbr : c = rbrace ∧ c2 = rbrace
        · simp only [fmtChars, if_pos hbr, alookup, ih rest none hr]
          simp [hbr.1, hbr.2]
        · simp only [fmtChars, if_neg hbr, ih (c2 :: rest) (some (c :: acc)) hr2]
          simp [List.reverse_cons, List.append_assoc]

theorem format_nil_args (s : String) : format s [] = s := by
  unfold format
  rw [fmtChars_nil_args_aux s.toList.length s.toList none (Nat.le_refl _)]
  exact string_mk_toList s

/-- `scanEntries` over a flat document of scalar leaves with non-empty
keys, into a node with an empty committed map: it succeeds and stages
every leaf under its canonical string form. -/
theorem scanEntries_flat (srcs : List SourceItem) (idx : Nat) (ow : Bool) :
    ∀ (doc : Doc) (n : LocaleNode),
    (∀ p ∈ doc, isScalarValue p.2 = true) →
    (∀ p ∈ doc, p.1 ≠ "") →
    n.content = [] →
    scanEntries srcs idx ow n doc =
      .ok { n with
              contentTmp := doc.foldl
                (fun t p => ainsert t p.1 (canonicalScalarString p.2))
                n.contentTmp } := by
  intro doc
  induction doc with
  | nil =>
    intro n _ _ _
    obtain ⟨s1, s2, s3, s4⟩ := n
    simp only [scanEntries, List.foldl_nil]
  | cons p t ih =>
    intro n hs hk hc
    obtain ⟨key, v⟩ := p
    have hkey : ¬(key = "") := hk (key, v) (List.mem_cons_self _ _)
    have hstore : ∀ val, nodeStore srcs n key val ow =
        .ok { n with contentTmp := ainsert n.contentTmp key val } := by
      intro val
      unfold nodeStore
      rw [hc]
      rfl
    have htail := fun (n2 : LocaleNode) (h2 : n2.content = []) =>
      ih n2 (fun q hq => hs q (List.mem_cons_of_mem _ hq))
        (fun q hq => hk q (List.mem_cons_of_mem _ hq)) h2
    cases v with
    | vStr s =>
      simp only [scanEntries, if_neg hkey, scanValue, hstore]
      exact htail _ hc
    | vBool b =>
      simp only [scanEntries, if_neg hkey, scanValue, hstore]
      exact htail _ hc
    | vInt i =>
      simp only [scanEntries, if_neg hkey, scanValue, hstore]
      exact htail _ hc
    | vUInt u =>
      simp only [scanEntries, if_neg hkey, scanValue, hstore]
      exact htail _ hc
    | vFloat m e =>
      simp only [scanEntries, if_neg hkey, scanValue, hstore]
      exact htail _ hc
    | vNull =>
      simp only [scanEntries, if_neg hkey, scanValue, hstore]
      exact htail _ hc
    | vMap mm =>
      exact absurd (hs (key, .vMap mm) (List.mem_cons_self _ _)) (by simp [isScalarValue])
    | vArr l =>
      exact absurd (hs (key, .vArr l) (List.mem_cons_self _ _)) (by simp [isScalarValue])
    | vMapArr l =>
      exact absurd (hs (key, .vMapArr l) (List.mem_cons_self _ _)) (by simp [isScalarValue])

theorem promoteNode_content (n : LocaleNode) :
    (promoteNode n).1.content =
      n.contentTmp.foldl (fun c q => ainsert c q.1 q.2) n.content := by
  obtain ⟨s1, s2, s3, s4⟩ := n
  rfl

/-- Claim C6 (amended): scalar round-trip.  For every document of scalar
leaves whose keys are non-empty, contain no `/` separator (the amendment
forced by the counterexample: `Locale.Tr` splits keys on `/`), and are
unique, merging the document into a fresh node, promoting, and then
looking each leaf key up through `Locale.Tr` with nil interpolation
arguments returns exactly the canonical string form of the stored value:
booleans as true/false, integers in base 10, floats with fixed two-digit
precision, nil as the undefined marker, strings unchanged. -/
theorem c6_scalar_round_trip (doc : Doc) (srcs : List SourceItem) (idx : Nat)
    (ow : Bool)
    (hs : ∀ p ∈ doc, isScalarValue p.2 = true)
    (hk : ∀ p ∈ doc, p.1 ≠ "" ∧ slashChar ∉ p.1.toList)
    (hnd : keysNodupB doc = true) :
    ∃ n2, nodeScan srcs idx ow emptyLocaleNode doc = .ok n2 ∧
      ∀ p ∈ doc,
        localeTr (some (localeWithRoot (promoteNode n2).1)) p.1 [] =
          canonicalScalarString p.2 := by
  have hscan := scanEntries_flat srcs idx ow doc emptyLocaleNode hs
    (fun p hp => (hk p hp).1) rfl
  refine ⟨markUsed idx ⟨[], [],
      doc.foldl (fun t p => ainsert t p.1 (canonicalScalarString p.2)) [], []⟩,
    ?_, ?_⟩
  · unfold nodeScan
    rw [hscan]
    rfl
  · intro p hp
    obtain ⟨hkne, hslash⟩ := hk p hp
    have hfoldEq :
        doc.foldl (fun t p => ainsert t p.1 (canonicalScalarString p.2)) [] =
          (doc.map (fun q => (q.1, canonicalScalarString q.2))).foldl
            (fun c q => ainsert c q.1 q.2) [] := by
      rw [List.foldl_map]
    have hndL : keysNodupB
        (doc.map (fun q => (q.1, canonicalScalarString q.2))) = true := by
      rw [keysNodupB_congr (doc.map (fun q => (q.1, canonicalScalarString q.2)))
        doc (by simp [List.map_map])]
      exact hnd
    have hlookL : alookup (doc.map (fun q => (q.1, canonicalScalarString q.2)))
        p.1 = some (canonicalScalarString p.2) := by
      rw [alookup_map_val, alookup_of_mem_nodup hnd hp]
      rfl
    have htmp : alookup
        (doc.foldl (fun t p => ainsert t p.1 (canonicalScalarString p.2)) [])
        p.1 = some (canonicalScalarString p.2) := by
      rw [hfoldEq]
      exact foldl_ainsert_alookup _ _ _ hndL hlookL []
    have hndfold : keysNodupB
        (doc.foldl (fun t p => ainsert t p.1 (canonicalScalarString p.2)) []) =
        true := by
      rw [hfoldEq]
      exact foldl_ainsert_nodup _ [] rfl
    have hlookC : alookup ((promoteNode (markUsed idx ⟨[], [],
        doc.foldl (fun t p => ainsert t p.1 (canonicalScalarString p.2)) [],
        []⟩)).1.content) p.1 = some (canonicalScalarString p.2) := by
      rw [promoteNode_content, markUsed_contentTmp, markUsed_content]
      exact foldl_ainsert_alookup _ _ _ hndfold htmp []
    unfold localeTr
    rw [if_neg (by simp [localeIsValid, localeWithRoot]), if_neg hkne]
    dsimp only [localeWithRoot]
    rw [splitSegs_no_slash _ hslash]
    simp only [trWalk]
    rw [string_mk_toList, hlookC]
    exact format_nil_args _

theorem c6_scalar_round_trip_witness :
    (∀ p ∈ c6Doc, isScalarValue p.2 = true) ∧
    (∀ p ∈ c6Doc, p.1 ≠ "" ∧ slashChar ∉ p.1.toList) ∧
    keysNodupB c6Doc = true ∧
    ∃ n2, nodeScan [] 0 false emptyLocaleNode c6Doc = .ok n2 ∧
      ∀ p ∈ c6Doc,
        localeTr (some (localeWithRoot (promoteNode n2).1)) p.1 [] =
          canonicalScalarString p.2 :=
  ⟨by decide, by decide, by decide,
    c6_scalar_round_trip c6Doc [] 0 false (by decide) (by decide) (by decide)⟩

theorem markUsed_committedCount (idx : Nat) (n : LocaleNode) :
    committedCount (markUsed idx n) = committedCount n := by
  obtain ⟨s1, s2, s3, s4⟩ := n
  unfold markUsed
  split <;> rfl

theorem markUsed_nodeWF (idx : Nat) (n : LocaleNode) :
    nodeWF (markUsed idx n) = nodeWF n := by
  obtain ⟨s1, s2, s3, s4⟩ := n
  unfold markUsed
  split <;> rfl

theorem markUsed_nodeFresh (idx : Nat) (n : LocaleNode) :
    nodeFresh (markUsed idx n) = nodeFresh n := by
  obtain ⟨s1, s2, s3, s4⟩ := n
  unfold markUsed
  split <;> rfl

theorem nodeWF_parts (n : LocaleNode) (h : nodeWF n = true) :
    keysNodupB n.content = true ∧ keysNodupB n.contentTmp = true ∧
    keysNodupB n.subNodes = true ∧ nodeWFSubs n.subNodes = true := by
  obtain ⟨s1, s2, s3, s4⟩ := n
  simpa only [nodeWF, Bool.and_eq_true, and_assoc] using h

theorem nodeFresh_parts (n : LocaleNode) (h : nodeFresh n = true) :
    n.contentTmp.all (fun p => (alookup n.content p.1).isNone) = true ∧
    nodeFreshSubs n.subNodes = true := by
  obtain ⟨s1, s2, s3, s4⟩ := n
  simpa only [nodeFresh, Bool.and_eq_true] using h

theorem nodeWFSubs_lookup : ∀ (subs : List (String × LocaleNode)),
    nodeWFSubs subs = true → ∀ k s, alookup subs k = some s →
    nodeWF s = true := by
  intro subs
  induction subs with
  | nil => intro _ k s h; simp [alookup] at h
  | cons q rest ih =>
    obtain ⟨k2, c⟩ := q
    intro h k s hl
    simp only [nodeWFSubs, Bool.and_eq_true] at h
    simp only [alookup] at hl
    by_cases hk : k2 = k
    · rw [if_pos hk] at hl
      injection hl with hl
      exact hl ▸ h.1
    · rw [if_neg hk] at hl
      exact ih h.2 k s hl

theorem nodeFreshSubs_lookup : ∀ (subs : List (String × LocaleNode)),
    nodeFreshSubs subs = true → ∀ k s, alookup subs k = some s →
    nodeFresh s = true := by
  intro subs
  induction subs with
  | nil => intro _ k s h; simp [alookup] at h
  | cons q rest ih =>
    obtain ⟨k2, c⟩ := q
    intro h k s hl
    simp only [nodeFreshSubs, Bool.and_eq_true] at h
    simp only [alookup] at hl
    by_cases hk : k2 = k
    · rw [if_pos hk] at hl
      injection hl with hl
      exact hl ▸ h.1
    · rw [if_neg hk] at hl
      exact ih h.2 k s hl

theorem nodeWFSubs_ainsert : ∀ (subs : List (String × LocaleNode))
    (k : String) (x : LocaleNode), nodeWFSubs subs = true → nodeWF x = true →
    nodeWFSubs (ainsert subs k x) = true := by
  intro subs
  induction subs with
  | nil =>
    intro k x _ hx
    simp only [ainsert, nodeWFSubs, Bool.and_eq_true]
    exact ⟨hx, trivial⟩
  | cons q rest ih =>
    obtain ⟨k2, c⟩ := q
    intro k x h hx
    simp only [nodeWFSubs, Bool.and_eq_true] at h
    by_cases hk : k2 = k
    · simp only [ainsert, if_pos hk, nodeWFSubs, Bool.and_eq_true]
      exact ⟨hx, h.2⟩
    · simp only [ainsert, if_neg hk, nodeWFSubs, Bool.and_eq_true]
      exact ⟨h.1, ih k x h.2 hx⟩

theorem nodeFreshSubs_ainsert : ∀ (subs : List (String × LocaleNode))
    (k : String) (x : LocaleNode), nodeFreshSubs subs = true →
    nodeFresh x = true → nodeFreshSubs (ainsert subs k x) = true := by
  intro subs
  induction subs with
  | nil =>
    intro k x _ hx
    simp only [ainsert, nodeFreshSubs, Bool.and_eq_true]
    exact ⟨hx, trivial⟩
  | cons q rest ih =>
    obtain ⟨k2, c⟩ := q
    intro k x h hx
    simp only [nodeFreshSubs, Bool.and_eq_true] at h
    by_cases hk : k2 = k
    · simp only [ainsert, if_pos hk, nodeFreshSubs, Bool.and_eq_true]
      exact ⟨hx, h.2⟩
    · simp only [ainsert, if_neg hk, nodeFreshSubs, Bool.and_eq_true]
      exact ⟨h.1, ih k x h.2 hx⟩

theorem committedCountSubs_ainsert_some : ∀ (subs : List (String × LocaleNode))
    (k : String) (x s : LocaleNode), alookup subs k = some s →
    committedCountSubs (ainsert subs k x) + committedCount s =
      committedCountSubs subs + committedCount x := by
  intro subs
  induction subs with
  | nil => intro k x s h; simp [alookup] at h
  | cons q rest ih =>
    obtain ⟨k2, c⟩ := q
    intro k x s h
    simp only [alookup] at h
    by_cases hk : k2 = k
    · rw [if_pos hk] at h
      injection h with h
      subst h
      simp only [ainsert, if_pos hk, committedCountSubs]
      omega
    · rw [if_neg hk] at h
      simp only [ainsert, if_neg hk, committedCountSubs]
      have := ih k x s h
      omega

theorem committedCountSubs_ainsert_none : ∀ (subs : List (String × LocaleNode))
    (k : String) (x : LocaleNode), alookup subs k = none →
    committedCountSubs (ainsert subs k x) =
      committedCountSubs subs + committedCount x := by
  intro subs
  induction subs with
  | nil => intro k x _; simp [ainsert, committedCountSubs]
  | cons q rest ih =>
    obtain ⟨k2, c⟩ := q
    intro k x h
    simp only [alookup] at h
    by_cases hk : k2 = k
    · simp [hk] at h
    · rw [if_neg hk] at h
      simp only [ainsert, if_neg hk, committedCountSubs]
      have := ih k x h
      omega

theorem nodeFresh_of_tmpEmpty : ∀ n, nodeTmpEmpty n = true →
    nodeFresh n = true := by
  refine promoteNode.induct
    (fun n => nodeTmpEmpty n = true → nodeFresh n = true)
    (fun subs => nodeTmpEmptySubs subs = true → nodeFreshSubs subs = true)
    ?_ ?_ ?_
  · intro subs content tmp used ih h
    simp only [nodeTmpEmpty, Bool.and_eq_true] at h
    simp only [nodeFresh, Bool.and_eq_true]
    refine ⟨?_, ih h.2⟩
    have : tmp = [] := List.isEmpty_iff.mp h.1
    subst this
    rfl
  · intro _
    rfl
  · intro k c rest ih1 ih2 h
    simp only [nodeTmpEmptySubs, Bool.and_eq_true] at h
    simp only [nodeFreshSubs, Bool.and_eq_true]
    exact ⟨ih1 h.1, ih2 h.2⟩

theorem clearTmp_committedCount : ∀ n,
    committedCount (clearTmpNode n) = committedCount n := by
  refine promoteNode.induct
    (fun n => committedCount (clearTmpNode n) = committedCount n)
    (fun subs => committedCountSubs (clearTmpSubs subs) = committedCountSubs subs)
    ?_ ?_ ?_
  · intro subs content tmp used ih
    simp only [clearTmpNode, committedCount, ih]
  · rfl
  · intro k c rest ih1 ih2
    simp only [clearTmpSubs, committedCountSubs, ih1, ih2]

theorem nodeStore_false_ok (srcs : List SourceItem) (n : LocaleNode)
    (key val : String) (n2 : LocaleNode)
    (h : nodeStore srcs n key val false = .ok n2) :
    n2 = { n with contentTmp := ainsert n.contentTmp key val } ∧
    alookup n.content key = none := by
  unfold nodeStore at h
  rcases hc : alookup n.content key with _ | old
  · rw [hc] at h
    refine ⟨?_, rfl⟩
    injection h with h
    exact h.symm
  · rw [hc] at h
    simp at h

theorem store_inv (srcs : List SourceItem) (n : LocaleNode) (key val : String)
    (n2 : LocaleNode) (hWF : nodeWF n = true) (hF : nodeFresh n = true)
    (h : nodeStore srcs n key val false = .ok n2) :
    nodeWF n2 = true ∧ nodeFresh n2 = true ∧
    committedCount n2 = committedCount n := by
  obtain ⟨hn2, hnone⟩ := nodeStore_false_ok srcs n key val n2 h
  subst hn2
  obtain ⟨subs, content, tmp, used⟩ := n
  simp only [nodeWF, Bool.and_eq_true, and_assoc] at hWF
  simp only [nodeFresh, Bool.and_eq_true] at hF
  refine ⟨?_, ?_, rfl⟩
  · simp only [nodeWF, Bool.and_eq_true, and_assoc]
    exact ⟨hWF.1, keysNodupB_ainsert _ _ _ hWF.2.1, hWF.2.2⟩
  · simp only [nodeFresh, Bool.and_eq_true]
    refine ⟨?_, hF.2⟩
    refine all_ainsert _ _ _ _ hF.1 ?_
    simp only at hnone ⊢
    rw [hnone]
    rfl

theorem scanEntries_inv (srcs : List SourceItem) (idx : Nat) :
    ∀ (n : LocaleNode) (l : List (String × Value)), nodeWF n = true →
    nodeFresh n = true → ∀ n2, scanEntries srcs idx false n l = .ok n2 →
    nodeWF n2 = true ∧ nodeFresh n2 = true ∧
    committedCount n2 = committedCount n := by
  refine scanEntries.induct srcs idx false
    (fun n l => nodeWF n = true → nodeFresh n = true → ∀ n2,
      scanEntries srcs idx false n l = .ok n2 →
      nodeWF n2 = true ∧ nodeFresh n2 = true ∧
      committedCount n2 = committedCount n)
    (fun n key v => nodeWF n = true → nodeFresh n = true → ∀ n2,
      scanValue srcs idx false n key v = .ok n2 →
      nodeWF n2 = true ∧ nodeFresh n2 = true ∧
      committedCount n2 = committedCount n)
    ?_ ?_ ?_ ?_ ?_ ?_ ?_ ?_ ?_ ?_ ?_ ?_ ?_ ?_
  · intro n key hWF hF n2 hok
    simp only [scanValue] at hok
    exact store_inv srcs n key _ n2 hWF hF hok
  · intro n key s hWF hF n2 hok
    simp only [scanValue] at hok
    exact store_inv srcs n key _ n2 hWF hF hok
  · intro n key b hWF hF n2 hok
    simp only [scanValue] at hok
    exact store_inv srcs n key _ n2 hWF hF hok
  · intro n key i hWF hF n2 hok
    simp only [scanValue] at hok
    exact store_inv srcs n key _ n2 hWF hF hok
  · intro n key u hWF hF n2 hok
    simp only [scanValue] at hok
    exact store_inv srcs n key _ n2 hWF hF hok
  · intro n key m e hWF hF n2 hok
    simp only [scanValue] at hok
    exact store_inv srcs n key _ n2 hWF hF hok
  · intro n key mm e hscan _ hWF hF n3 hok
    simp [scanValue, hscan] at hok
  · intro n key mm n2 hscan ihsub hWF hF n3 hok
    obtain ⟨subs, content, tmp, used⟩ := n
    simp only [scanValue, hscan] at hok
    injection hok with hok
    subst hok
    rcases hsubl : alookup (LocaleNode.mk subs content tmp used).subNodes key
        with _ | s
    · rw [hsubl] at hscan ihsub
      dsimp only at hscan ihsub
      obtain ⟨hWF2, hF2, hcnt⟩ := ihsub rfl rfl n2 hscan
      simp only [nodeWF, Bool.and_eq_true, and_assoc] at hWF
      simp only [nodeFresh, Bool.and_eq_true] at hF
      refine ⟨?_, ?_, ?_⟩
      · simp only [nodeWF, Bool.and_eq_true, and_assoc]
        exact ⟨hWF.1, hWF.2.1, keysNodupB_ainsert _ _ _ hWF.2.2.1,
          nodeWFSubs_ainsert _ _ _ hWF.2.2.2
            (by rw [markUsed_nodeWF]; exact hWF2)⟩
      · simp only [nodeFresh, Bool.and_eq_true]
        exact ⟨hF.1, nodeFreshSubs_ainsert _ _ _ hF.2
          (by rw [markUsed_nodeFresh]; exact hF2)⟩
      · simp only [committedCount]
        have hn := committedCountSubs_ainsert_none subs key
          (markUsed idx n2) hsubl
        rw [markUsed_committedCount] at hn
        have hempty : committedCount emptyLocaleNode = 0 := rfl
        rw [hempty] at hcnt
        omega
    · rw [hsubl] at hscan ihsub
      dsimp only at hscan ihsub
      have hsWF := nodeWFSubs_lookup subs
        (nodeWF_parts _ hWF).2.2.2 key s hsubl
      have hsF := nodeFreshSubs_lookup subs (nodeFresh_parts _ hF).2 key s hsubl
      obtain ⟨hWF2, hF2, hcnt⟩ := ihsub hsWF hsF n2 hscan
      simp only [nodeWF, Bool.and_eq_true, and_assoc] at hWF
      simp only [nodeFresh, Bool.and_eq_true] at hF
      refine ⟨?_, ?_, ?_⟩
      · simp only [nodeWF, Bool.and_eq_true, and_assoc]
        exact ⟨hWF.1, hWF.2.1, keysNodupB_ainsert _ _ _ hWF.2.2.1,
          nodeWFSubs_ainsert _ _ _ hWF.2.2.2
            (by rw [markUsed_nodeWF]; exact hWF2)⟩
      · simp only [nodeFresh, Bool.and_eq_true]
        exact ⟨hF.1, nodeFreshSubs_ainsert _ _ _ hF.2
          (by rw [markUsed_nodeFresh]; exact hF2)⟩
      · simp only [committedCount]
        have hn := committedCountSubs_ainsert_some subs key
          (markUsed idx n2) s hsubl
        rw [markUsed_committedCount] at hn
        omega
  · intro n key l hWF hF n2 hok
    simp [scanValue] at hok
  · intro n key l hWF hF n2 hok
    simp [scanValue] at hok
  · intro n hWF hF n2 hok
    obtain ⟨subs, content, tmp, used⟩ := n
    simp only [scanEntries] at hok
    injection hok with hok
    subst hok
    exact ⟨hWF, hF, rfl⟩
  · intro n v rest hWF hF n2 hok
    simp [scanEntries] at hok
  · intro n key v rest hkey e herr ih2 hWF hF n2 hok
    simp [scanEntries, if_neg hkey, herr] at hok
  · intro n key v rest hkey n2 hv ih2 ih1 hWF hF n3 hok
    simp only [scanEntries, if_neg hkey, hv] at hok
    obtain ⟨hWF2, hF2, hcnt2⟩ := ih2 hWF hF n2 hv
    obtain ⟨hWF3, hF3, hcnt3⟩ := ih1 hWF2 hF2 n3 hok
    exact ⟨hWF3, hF3, by omega⟩

theorem promote_inv : ∀ n, nodeWF n = true → nodeFresh n = true →
    nodeWF (promoteNode n).1 = true ∧ nodeTmpEmpty (promoteNode n).1 = true ∧
    committedCount (promoteNode n).1 = committedCount n + (promoteNode n).2 := by
  refine promoteNode.induct
    (fun n => nodeWF n = true → nodeFresh n = true →
      nodeWF (promoteNode n).1 = true ∧ nodeTmpEmpty (promoteNode n).1 = true ∧
      committedCount (promoteNode n).1 = committedCount n + (promoteNode n).2)
    (fun subs => nodeWFSubs subs = true → nodeFreshSubs subs = true →
      nodeWFSubs (promoteSubs subs).1 = true ∧
      nodeTmpEmptySubs (promoteSubs subs).1 = true ∧
      committedCountSubs (promoteSubs subs).1 =
        committedCountSubs subs + (promoteSubs subs).2 ∧
      (promoteSubs subs).1.map Prod.fst = subs.map Prod.fst)
    ?_ ?_ ?_
  · intro subs content tmp used ih hWF hF
    simp only [nodeWF, Bool.and_eq_true, and_assoc] at hWF
    simp only [nodeFresh, Bool.and_eq_true] at hF
    obtain ⟨ihWF, ihTE, ihCnt, ihKeys⟩ := ih hWF.2.2.2 hF.2
    have hfresh : ∀ p ∈ tmp, alookup content p.1 = none := by
      intro p hp
      have := List.all_eq_true.mp hF.1 p hp
      exact Option.isNone_iff_eq_none.mp this
    simp only [promoteNode]
    refine ⟨?_, ?_, ?_⟩
    · simp only [nodeWF, Bool.and_eq_true, and_assoc]
      refine ⟨foldl_ainsert_nodup tmp content hWF.1, rfl, ?_, ihWF⟩
      rw [keysNodupB_congr (promoteSubs subs).1 subs ihKeys]
      exact hWF.2.2.1
    · simp only [nodeTmpEmpty, Bool.and_eq_true]
      exact ⟨rfl, ihTE⟩
    · simp only [committedCount]
      have hlen := foldl_ainsert_length tmp content hWF.2.1 hfresh
      omega
  · intro _ _
    exact ⟨rfl, rfl, rfl, rfl⟩
  · intro k c rest ih1 ih2 hWF hF
    simp only [nodeWFSubs, Bool.and_eq_true] at hWF
    simp only [nodeFreshSubs, Bool.and_eq_true] at hF
    obtain ⟨w1, t1, c1⟩ := ih1 hWF.1 hF.1
    obtain ⟨w2, t2, c2, k2⟩ := ih2 hWF.2 hF.2
    simp only [promoteSubs]
    refine ⟨?_, ?_, ?_, ?_⟩
    · simp only [nodeWFSubs, Bool.and_eq_true]
      exact ⟨w1, w2⟩
    · simp only [nodeTmpEmptySubs, Bool.and_eq_true]
      exact ⟨t1, t2⟩
    · simp only [committedCountSubs]
      omega
    · simp only [List.map_cons, k2]

theorem scanLocale_inv (st : List (String × Locale)) (lcName : String)
    (hinv : ∀ p ∈ st, localeInv p.2) : localeInv (scanLocale st lcName) := by
  unfold scanLocale
  rcases hl : alookup st lcName with _ | l
  · exact ⟨emptyLocaleNode, rfl, rfl, rfl, rfl⟩
  · exact hinv (lcName, l) (alookup_mem hl)

theorem clientScan_inv (srcs : List SourceItem)
    (st : List (String × Locale)) (root : Doc) (idx : Nat)
    (hinv : ∀ p ∈ st, localeInv p.2) (st2 : List (String × Locale))
    (h : clientScan srcs st root idx false = .ok st2) :
    ∀ p ∈ st2, localeInv p.2 := by
  obtain ⟨r, hroot, hWF, hTE, hcnt⟩ := scanLocale_inv st (scanLocaleName srcs idx) hinv
  unfold clientScan at h
  rw [hroot] at h
  dsimp only at h
  rcases hns : nodeScan srcs idx false r root with e | rootNode2
  · rw [hns] at h
    simp at h
  · rw [hns] at h
    dsimp only at h
    injection h with h
    subst h
    unfold nodeScan at hns
    rcases hse : scanEntries srcs idx false r root with e | n2
    · rw [hse] at hns
      simp at hns
    · rw [hse] at hns
      dsimp only at hns
      injection hns with hns
      subst hns
      obtain ⟨hWF2, hF2, hcnt2⟩ := scanEntries_inv srcs idx r root hWF
        (nodeFresh_of_tmpEmpty r hTE) n2 hse
      have hWF3 : nodeWF (markUsed idx n2) = true := by
        rw [markUsed_nodeWF]; exact hWF2
      have hF3 : nodeFresh (markUsed idx n2) = true := by
        rw [markUsed_nodeFresh]; exact hF2
      obtain ⟨pWF, pTE, pCnt⟩ := promote_inv (markUsed idx n2) hWF3 hF3
      intro p hp
      rcases mem_ainsert hp with hmem | heq
      · exact hinv p hmem
      · subst heq
        refine ⟨(promoteNode (markUsed idx n2)).1, rfl, pWF, pTE, ?_⟩
        rw [markUsed_committedCount] at pCnt
        dsimp only
        rw [hcnt]
        omega

theorem loadItem_inv (d : Decoders) (srcs : List SourceItem)
    (st : List (String × Locale)) (idx : Nat)
    (hinv : ∀ p ∈ st, localeInv p.2) (st2 : List (String × Locale))
    (h : loadItem d srcs st idx false = .ok st2) :
    ∀ p ∈ st2, localeInv p.2 := by
  unfold loadItem at h
  rcases hget : srcs.get? idx with _ | si
  · rw [hget] at h
    simp at h
  · rw [hget] at h
    dsimp only at h
    rcases hdec : decodeSourceItem d si with e | pr
    · rw [hdec] at h
      simp at h
    · rw [hdec] at h
      obtain ⟨siCopy, rootMap⟩ := pr
      dsimp only at h
      by_cases hemp : rootMap.isEmpty
      · rw [if_pos hemp] at h
        simp at h
      · rw [if_neg hemp] at h
        rcases hmeta : loadMetaData siCopy rootMap with e | pr2
        · rw [hmeta] at h
          simp at h
        · rw [hmeta] at h
          obtain ⟨ln2, rootMap2⟩ := pr2
          dsimp only at h
          exact clientScan_inv srcs st rootMap2 idx hinv st2 h

theorem loadLoop_inv (d : Decoders) (srcs : List SourceItem) :
    ∀ (idxs : List Nat) (st st2 : List (String × Locale)),
    (∀ p ∈ st, localeInv p.2) →
    loadLoop d srcs false idxs st = (st2, none) →
    ∀ p ∈ st2, localeInv p.2 := by
  intro idxs
  induction idxs with
  | nil =>
    intro st st2 hinv h
    simp only [loadLoop] at h
    injection h with h1 _
    subst h1
    exact hinv
  | cons i rest ih =>
    intro st st2 hinv h
    simp only [loadLoop] at h
    rcases hit : loadItem d srcs st i false with e | stm
    · rw [hit] at h
      simp at h
    · rw [hit] at h
      dsimp only at h
      exact ih stm st2 (loadItem_inv d srcs st i hinv stm hit) h

/-- Claim C9 (amended): the per-locale phrase counter increments once per
promoted staging entry, not once per distinct committed key; when the
overwrite-existing-key switch is off (so no promotion ever re-promotes an
already committed key), every successful `Client.load` started with an
empty provisional registry leaves every locale of the live registry with
its phrase counter equal to the total number of committed leaf phrases
across its whole subtree. -/
theorem c9_phrase_counter (c : Client) (d : Decoders) (c2 : Client)
    (how : c.config.overwriteExistingKey = false)
    (hst : c.storageTmp = none)
    (h : clientLoad c d = (c2, none)) :
    ∀ p ∈ c2.storage.getD [], p.2.phrasesCount = committedCountOpt p.2.root := by
  unfold clientLoad at h
  by_cases h1 : c.state = LLS_READY
  · rw [if_pos h1] at h
    simp at h
  · rw [if_neg h1] at h
    by_cases h2 : c.state ≠ LLS_STANDBY
    · rw [if_pos h2] at h
      simp at h
    · rw [if_neg h2] at h
      unfold loadPhase at h
      dsimp only at h
      rw [how, hst] at h
      by_cases hemp : c.sourcesTmp.isEmpty
      · rw [if_pos hemp] at h
        simp at h
      · rw [if_neg hemp] at h
        simp only [Option.getD_none] at h
        rcases hLL : loadLoop d c.sourcesTmp false
            (List.range c.sourcesTmp.length) [] with ⟨st2, err⟩
        rw [hLL] at h
        cases err with
        | some e =>
          dsimp only at h
          simp at h
        | none =>
          dsimp only at h
          by_cases htot : totalPhrases st2 = 0
          · rw [if_pos htot] at h
            simp at h
          · rw [if_neg htot] at h
            injection h with hc2 _
            subst hc2
            simp only [loadApplyDefer]
            intro p hp
            simp only [Option.getD_some] at hp
            unfold publishLocales at hp
            obtain ⟨q, hq, hpq⟩ := List.mem_map.mp hp
            obtain ⟨r, hr, _, _, hcq⟩ :=
              loadLoop_inv d c.sourcesTmp (List.range c.sourcesTmp.length)
                [] st2 (by intro p hp; simp at hp) hLL q hq
            subst hpq
            dsimp only
            rw [hr]
            have hred : committedCountOpt (Option.map clearTmpNode (some r)) =
                committedCount (clearTmpNode r) := rfl
            rw [hred, clearTmp_committedCount]
            exact hcq

theorem c9_phrase_counter_witness :
    c9okClient.config.overwriteExistingKey = false ∧
    c9okClient.storageTmp = none ∧
    (clientLoad c9okClient owDec).2 = none ∧
    ∀ p ∈ (clientLoad c9okClient owDec).1.storage.getD [],
      p.2.phrasesCount = committedCountOpt p.2.root := by
  have h2 : (clientLoad c9okClient owDec).2 = none := by decide
  have h : clientLoad c9okClient owDec = ((clientLoad c9okClient owDec).1, none) := by
    rw [← h2]
  exact ⟨rfl, rfl, h2,
    c9_phrase_counter c9okClient owDec (clientLoad c9okClient owDec).1 rfl rfl h⟩

end Privet
